import Mathlib

/-!
Verification of the BufferVault cryptographic core.

This file is a shallow embedding, in Lean 4, of the cryptographic and
persistence core of the BufferVault clipboard manager:

* `src/crypto/sha256.rs`  — SHA-256 (incremental hasher and one-shot)
* `src/crypto/pbkdf2.rs`  — HMAC-SHA256 and PBKDF2-HMAC-SHA256
* `src/crypto/ghash.rs`   — GF(2^128) arithmetic and GHASH
* `src/crypto/aes_gcm.rs` — AES-256 block cipher and AES-256-GCM
* `src/storage/format.rs` — binary serialization of clipboard entries
* `src/storage/vault.rs`  — the encrypted vault file format

Modelling conventions:
* Rust `u8`/`u32`/`u64` values are `Nat`; wrapping arithmetic is made
  explicit with `% 2^8`, `% 2^32`, `% 2^64` exactly where the Rust
  types truncate.  `i64` is `Int` with two's-complement byte encoding.
* Rust byte slices and `Vec<u8>` are `List Nat`; indexing `data[i]`
  is `List.getD data i 0` (all concrete indexing in the Rust code is
  either bounds-checked first or guaranteed in range by array types).
* Rust `String` fields are represented by their UTF-8 byte sequences.
  `String::from_utf8_lossy` is the identity on the byte sequences that
  the serializer itself produces (they come from valid UTF-8 strings),
  which is the only context in which the claims exercise it.
* File I/O is modelled by values: `save_vault` returns the byte string
  it writes, `load_vault` takes an `Option (List Nat)` (with `none`
  standing for an absent file).  The CSPRNG is modelled by passing the
  generated nonce as an argument (the code's only failure mode there,
  `BCryptGenRandom` failing, is outside the properties checked here).
* Rust loops that are not structurally recursive are embedded with an
  explicit fuel argument large enough to never run out on the actual
  data (adequacy lemmas below discharge the fuel).
-/

set_option maxRecDepth 100000

namespace BufferVault


/-! ### Byte-level utilities -/

/-- Little-endian byte encoding of `x` on `n` bytes (the semantics of
`u16::to_le_bytes`, `u32::to_le_bytes`, `u64::to_le_bytes` after the
`as uN` truncating cast: only the low `8*n` bits of `x` are kept). -/
def leBytes : Nat → Nat → List Nat
  | 0, _ => []
  | n + 1, x => x % 256 :: leBytes n (x / 256)

/-- Little-endian byte decoding (the semantics of `uN::from_le_bytes`). -/
def fromLE : List Nat → Nat
  | [] => 0
  | b :: bs => b + 256 * fromLE bs

/-- Big-endian byte encoding of `x` on `n` bytes (`uN::to_be_bytes`). -/
def beBytes (n x : Nat) : List Nat := (leBytes n x).reverse

/-- Big-endian byte decoding (`uN::from_be_bytes`). -/
def fromBE (l : List Nat) : Nat := l.foldl (fun acc b => acc * 256 + b) 0

/-- The Rust slice expression `data[pos..pos+n]` (in the code it is
always either bounds-checked before use or truncated by a guard). -/
def sub (data : List Nat) (pos n : Nat) : List Nat := (data.drop pos).take n

/-- The Rust index expression `data[pos]` for bounds-checked reads. -/
def byteAt (data : List Nat) (pos : Nat) : Nat := data.getD pos 0

/-! ### SHA-256 (`src/crypto/sha256.rs`)

The eight 32-bit working registers and the running hash are `List Nat`
of length 8; a 64-byte block is a `List Nat` of length 64. -/

/-- Round constants K (FIPS 180-4). -/
def shaK : List Nat :=
  [0x428A2F98, 0x71374491, 0xB5C0FBCF, 0xE9B5DBA5,
   0x3956C25B, 0x59F111F1, 0x923F82A4, 0xAB1C5ED5,
   0xD807AA98, 0x12835B01, 0x243185BE, 0x550C7DC3,
   0x72BE5D74, 0x80DEB1FE, 0x9BDC06A7, 0xC19BF174,
   0xE49B69C1, 0xEFBE4786, 0x0FC19DC6, 0x240CA1CC,
   0x2DE92C6F, 0x4A7484AA, 0x5CB0A9DC, 0x76F988DA,
   0x983E5152, 0xA831C66D, 0xB00327C8, 0xBF597FC7,
   0xC6E00BF3, 0xD5A79147, 0x06CA6351, 0x14292967,
   0x27B70A85, 0x2E1B2138, 0x4D2C6DFC, 0x53380D13,
   0x650A7354, 0x766A0ABB, 0x81C2C92E, 0x92722C85,
   0xA2BFE8A1, 0xA81A664B, 0xC24B8B70, 0xC76C51A3,
   0xD192E819, 0xD6990624, 0xF40E3585, 0x106AA070,
   0x19A4C116, 0x1E376C08, 0x2748774C, 0x34B0BCB5,
   0x391C0CB3, 0x4ED8AA4A, 0x5B9CCA4F, 0x682E6FF3,
   0x748F82EE, 0x78A5636F, 0x84C87814, 0x8CC70208,
   0x90BEFFFA, 0xA4506CEB, 0xBEF9A3F7, 0xC67178F2]

/-- Initial hash value H_INIT (FIPS 180-4). -/
def shaHInit : List Nat :=
  [0x6a09e667, 0xbb67ae85, 0x3c6ef372, 0xa54ff53a,
   0x510e527f, 0x9b05688c, 0x1f83d9ab, 0x5be0cd19]

/-- 32-bit wrapping addition (`u32::wrapping_add`). -/
def add32 (a b : Nat) : Nat := (a + b) % 2 ^ 32

/-- 32-bit right rotation (`rotr` in the source; the `u32` left shift
truncates to 32 bits before the bitwise or). -/
def rotr (x n : Nat) : Nat := (x >>> n) ||| ((x <<< (32 - n)) % 2 ^ 32)

/-- Big Sigma 0. -/
def bigSigma0 (x : Nat) : Nat := rotr x 2 ^^^ rotr x 13 ^^^ rotr x 22

/-- Big Sigma 1. -/
def bigSigma1 (x : Nat) : Nat := rotr x 6 ^^^ rotr x 11 ^^^ rotr x 25

/-- Small sigma 0. -/
def smallSigma0 (x : Nat) : Nat := rotr x 7 ^^^ rotr x 18 ^^^ (x >>> 3)

/-- Small sigma 1. -/
def smallSigma1 (x : Nat) : Nat := rotr x 17 ^^^ rotr x 19 ^^^ (x >>> 10)

/-- Ch(x,y,z); the `u32` complement `!x` is `x ^^^ 0xFFFFFFFF`. -/
def shaCh (x y z : Nat) : Nat := (x &&& y) ^^^ ((x ^^^ 0xFFFFFFFF) &&& z)

/-- Maj(x,y,z). -/
def shaMaj (x y z : Nat) : Nat := (x &&& y) ^^^ (x &&& z) ^^^ (y &&& z)

/-- The first 16 words of the message schedule, loaded big-endian from
the 64-byte block. -/
def wInit (block : List Nat) : List Nat :=
  (List.range 16).map (fun i => fromBE (sub block (4 * i) 4))

/-- Extends the message schedule by `n` words.  The accumulator holds
the schedule in reverse (newest word first), so `w[i-2]` is entry 1,
`w[i-7]` entry 6, `w[i-15]` entry 14 and `w[i-16]` entry 15. -/
def scheduleGo : Nat → List Nat → List Nat
  | 0, acc => acc
  | n + 1, acc =>
      let x := add32 (add32 (add32 (smallSigma1 (acc.getD 1 0)) (acc.getD 6 0))
        (smallSigma0 (acc.getD 14 0))) (acc.getD 15 0)
      scheduleGo n (x :: acc)

/-- The full 64-word message schedule of a block. -/
def messageSchedule (block : List Nat) : List Nat :=
  (scheduleGo 48 (wInit block).reverse).reverse

/-- One of the 64 compression rounds, acting on the working registers
`[a, b, c, d, e, f, g, h]`. -/
def shaRound (w : List Nat) (st : List Nat) (i : Nat) : List Nat :=
  let a := st.getD 0 0
  let b := st.getD 1 0
  let c := st.getD 2 0
  let d := st.getD 3 0
  let e := st.getD 4 0
  let f := st.getD 5 0
  let g := st.getD 6 0
  let h := st.getD 7 0
  let t1 := add32 (add32 (add32 (add32 h (bigSigma1 e)) (shaCh e f g))
    (shaK.getD i 0)) (w.getD i 0)
  let t2 := add32 (bigSigma0 a) (shaMaj a b c)
  [add32 t1 t2, a, b, c, add32 d t1, e, f, g]

/-- `Sha256::compress`: one block through the compression function. -/
def compress (state block : List Nat) : List Nat :=
  let w := messageSchedule block
  let st := (List.range 64).foldl (shaRound w) state
  [add32 (state.getD 0 0) (st.getD 0 0),
   add32 (state.getD 1 0) (st.getD 1 0),
   add32 (state.getD 2 0) (st.getD 2 0),
   add32 (state.getD 3 0) (st.getD 3 0),
   add32 (state.getD 4 0) (st.getD 4 0),
   add32 (state.getD 5 0) (st.getD 5 0),
   add32 (state.getD 6 0) (st.getD 6 0),
   add32 (state.getD 7 0) (st.getD 7 0)]

/-- The incremental hasher state (`struct Sha256`).  The Rust 64-byte
buffer together with `buf_len` is modelled by the list of its first
`buf_len` (meaningful) bytes; bytes past `buf_len` are never read. -/
structure Sha256 where
  state : List Nat
  buffer : List Nat
  total_len : Nat
deriving DecidableEq

/-- `Sha256::new`. -/
def Sha256.new : Sha256 := ⟨shaHInit, [], 0⟩

/-- Compresses all leading complete 64-byte blocks of `d`, returning
the new state and the remaining (< 64 bytes) tail.  `fuel` bounds the
number of iterations of the Rust `while offset + 64 <= data.len()`
loop; it is instantiated with `d.length`, which always suffices. -/
def processBlocksAux : Nat → List Nat → List Nat → List Nat × List Nat
  | 0, s, d => (s, d)
  | fuel + 1, s, d =>
      if 64 ≤ d.length then processBlocksAux fuel (compress s (d.take 64)) (d.drop 64)
      else (s, d)

/-- Block-absorption with adequate fuel. -/
def processBlocks (s d : List Nat) : List Nat × List Nat :=
  processBlocksAux d.length s d

/-- `Sha256::update`.  The three phases of the Rust code (top up the
partial buffer, absorb whole blocks, store the tail) map onto the
three branches below. -/
def Sha256.update (s : Sha256) (data : List Nat) : Sha256 :=
  let total := (s.total_len + data.length) % 2 ^ 64
  if s.buffer.isEmpty then
    let pr := processBlocks s.state data
    ⟨pr.1, pr.2, total⟩
  else
    let space := 64 - s.buffer.length
    if data.length < space then
      ⟨s.state, s.buffer ++ data, total⟩
    else
      let st1 := compress s.state (s.buffer ++ data.take space)
      let pr := processBlocks st1 (data.drop space)
      ⟨pr.1, pr.2, total⟩

/-- Serializes the running hash into the 32-byte digest. -/
def digestOf (state : List Nat) : List Nat := (state.map (beBytes 4)).flatten

/-- `Sha256::finalize`: padding (0x80, zero fill, 64-bit big-endian bit
length) and the final compression(s). -/
def Sha256.finalize (s : Sha256) : List Nat :=
  let bitLen := s.total_len * 8 % 2 ^ 64
  let buf1 := s.buffer ++ [0x80]
  if 56 < buf1.length then
    let st1 := compress s.state (buf1 ++ List.replicate (64 - buf1.length) 0)
    digestOf (compress st1 (List.replicate 56 0 ++ beBytes 8 bitLen))
  else
    digestOf (compress s.state (buf1 ++ List.replicate (56 - buf1.length) 0 ++ beBytes 8 bitLen))

/-- One-shot `sha256(data)`. -/
def sha256 (data : List Nat) : List Nat :=
  (Sha256.new.update data).finalize

/-! ### HMAC-SHA256 and PBKDF2-HMAC-SHA256 (`src/crypto/pbkdf2.rs`) -/

/-- `hmac_sha256(key, message)` (RFC 2104): keys longer than the
64-byte block are hashed down to 32 bytes, then zero-padded to 64;
inner and outer hashes are computed through the incremental hasher
exactly as in the source. -/
def hmacSha256 (key message : List Nat) : List Nat :=
  let keyBlock :=
    if 64 < key.length then sha256 key ++ List.replicate 32 0
    else key ++ List.replicate (64 - key.length) 0
  let ipad := keyBlock.map (fun b => 0x36 ^^^ b)
  let opad := keyBlock.map (fun b => 0x5c ^^^ b)
  let innerHash := ((Sha256.new.update ipad).update message).finalize
  ((Sha256.new.update opad).update innerHash).finalize

/-- The `U_2 .. U_iterations` loop of one PBKDF2 block: `n` is the
number of remaining loop turns (`iterations - 1` at the call site,
matching the Rust `for _ in 1..iterations`), `uPrev` the previous
PRF output and `result` the XOR accumulator. -/
def pbkdf2BlockIter (password : List Nat) : Nat → List Nat → List Nat → List Nat
  | 0, _, result => result
  | n + 1, uPrev, result =>
      let uNext := hmacSha256 password uPrev
      pbkdf2BlockIter password n uNext (List.zipWith (· ^^^ ·) result uNext)

/-- One output block `T_blockIdx` of PBKDF2: `U_1 = PRF(password,
salt || INT_32_BE(blockIdx))`, then the XOR-accumulating iteration. -/
def pbkdf2Block (password salt : List Nat) (iterations blockIdx : Nat) : List Nat :=
  let saltBlock := salt ++ beBytes 4 blockIdx
  let u1 := hmacSha256 password saltBlock
  pbkdf2BlockIter password (iterations - 1) u1 u1

/-- `pbkdf2_hmac_sha256(password, salt, iterations, key_len)`
(RFC 8018): blocks indexed `1 ..= blocks_needed as u32`, concatenated
and truncated to `key_len`. -/
def pbkdf2HmacSha256 (password salt : List Nat) (iterations keyLen : Nat) : List Nat :=
  let blocksNeeded := (keyLen + 32 - 1) / 32
  (((List.range' 1 (blocksNeeded % 2 ^ 32)).map
    (pbkdf2Block password salt iterations)).flatten).take keyLen

/-! ### Error kinds (`src/error.rs`)

`BvError` carries a message string in Rust; no claim depends on the
message text, so only the kind is modelled. -/

/-- The three error kinds of `BvError`. -/
inductive BvError where
  | crypto
  | integrity
  | storage
deriving DecidableEq

deriving instance DecidableEq for Except

/-! ### GF(2^128) and GHASH (`src/crypto/ghash.rs`) -/

/-- An element of GF(2^128) as two 64-bit words (`struct GfElement`). -/
structure GfElement where
  hi : Nat
  lo : Nat
deriving DecidableEq

/-- `GfElement::from_bytes`: big-endian load of 16 bytes. -/
def GfElement.fromBytes (b : List Nat) : GfElement :=
  ⟨fromBE (b.take 8), fromBE ((b.drop 8).take 8)⟩

/-- `GfElement::to_bytes`: big-endian store to 16 bytes. -/
def GfElement.toBytes (x : GfElement) : List Nat :=
  beBytes 8 x.hi ++ beBytes 8 x.lo

/-- `GfElement::xor`. -/
def GfElement.xor (x y : GfElement) : GfElement := ⟨x.hi ^^^ y.hi, x.lo ^^^ y.lo⟩

/-- The GCM reduction constant R = 0xE1 followed by 120 zero bits. -/
def rPoly : Nat := 0xE100000000000000

/-- The bit-serial loop of `gf_mul`: `n` counts the remaining of the
128 iterations, `i` is the current bit index of `y` (MSB first), `z`
the accumulator and `v` the shifted copy of `x`. -/
def gfMulGo (y : GfElement) : Nat → Nat → GfElement → GfElement → GfElement
  | 0, _, z, _ => z
  | n + 1, i, z, v =>
      let bit := if i < 64 then (y.hi >>> (63 - i)) &&& 1 else (y.lo >>> (127 - i)) &&& 1
      let z1 := if bit = 1 then z.xor v else z
      let carry := v.hi &&& 1
      let v1 : GfElement := ⟨v.hi >>> 1, (v.lo >>> 1) ||| (carry <<< 63)⟩
      let v2 : GfElement := if carry = 1 then ⟨v1.hi ^^^ rPoly, v1.lo⟩ else v1
      gfMulGo y n (i + 1) z1 v2

/-- `gf_mul(x, y)`: multiplication in GF(2^128). -/
def gfMul (x y : GfElement) : GfElement := gfMulGo y 128 0 ⟨0, 0⟩ x

/-- The block-folding loop of `ghash` (`while i + 16 <= data.len()`),
with fuel instantiated to `data.length`. -/
def ghashGo (h : GfElement) : Nat → List Nat → GfElement → GfElement
  | 0, _, y => y
  | fuel + 1, d, y =>
      if 16 ≤ d.length then
        ghashGo h fuel (d.drop 16) (gfMul (y.xor (GfElement.fromBytes (d.take 16))) h)
      else y

/-- `ghash(h, data)`: folds the 16-byte blocks of `data` starting from
the zero element. -/
def ghash (h : GfElement) (data : List Nat) : GfElement :=
  ghashGo h data.length data ⟨0, 0⟩

/-! ### AES-256 and AES-256-GCM (`src/crypto/aes_gcm.rs`) -/

/-- The standard AES S-box (`SBOX`). -/
def sbox : List Nat :=
  [0x63,0x7c,0x77,0x7b,0xf2,0x6b,0x6f,0xc5,0x30,0x01,0x67,0x2b,0xfe,0xd7,0xab,0x76,
   0xca,0x82,0xc9,0x7d,0xfa,0x59,0x47,0xf0,0xad,0xd4,0xa2,0xaf,0x9c,0xa4,0x72,0xc0,
   0xb7,0xfd,0x93,0x26,0x36,0x3f,0xf7,0xcc,0x34,0xa5,0xe5,0xf1,0x71,0xd8,0x31,0x15,
   0x04,0xc7,0x23,0xc3,0x18,0x96,0x05,0x9a,0x07,0x12,0x80,0xe2,0xeb,0x27,0xb2,0x75,
   0x09,0x83,0x2c,0x1a,0x1b,0x6e,0x5a,0xa0,0x52,0x3b,0xd6,0xb3,0x29,0xe3,0x2f,0x84,
   0x53,0xd1,0x00,0xed,0x20,0xfc,0xb1,0x5b,0x6a,0xcb,0xbe,0x39,0x4a,0x4c,0x58,0xcf,
   0xd0,0xef,0xaa,0xfb,0x43,0x4d,0x33,0x85,0x45,0xf9,0x02,0x7f,0x50,0x3c,0x9f,0xa8,
   0x51,0xa3,0x40,0x8f,0x92,0x9d,0x38,0xf5,0xbc,0xb6,0xda,0x21,0x10,0xff,0xf3,0xd2,
   0xcd,0x0c,0x13,0xec,0x5f,0x97,0x44,0x17,0xc4,0xa7,0x7e,0x3d,0x64,0x5d,0x19,0x73,
   0x60,0x81,0x4f,0xdc,0x22,0x2a,0x90,0x88,0x46,0xee,0xb8,0x14,0xde,0x5e,0x0b,0xdb,
   0xe0,0x32,0x3a,0x0a,0x49,0x06,0x24,0x5c,0xc2,0xd3,0xac,0x62,0x91,0x95,0xe4,0x79,
   0xe7,0xc8,0x37,0x6d,0x8d,0xd5,0x4e,0xa9,0x6c,0x56,0xf4,0xea,0x65,0x7a,0xae,0x08,
   0xba,0x78,0x25,0x2e,0x1c,0xa6,0xb4,0xc6,0xe8,0xdd,0x74,0x1f,0x4b,0xbd,0x8b,0x8a,
   0x70,0x3e,0xb5,0x66,0x48,0x03,0xf6,0x0e,0x61,0x35,0x57,0xb9,0x86,0xc1,0x1d,0x9e,
   0xe1,0xf8,0x98,0x11,0x69,0xd9,0x8e,0x94,0x9b,0x1e,0x87,0xe9,0xce,0x55,0x28,0xdf,
   0x8c,0xa1,0x89,0x0d,0xbf,0xe6,0x42,0x68,0x41,0x99,0x2d,0x0f,0xb0,0x54,0xbb,0x16]

/-- The Rcon round constants (`RCON`). -/
def rcon : List Nat := [0x01, 0x02, 0x04, 0x08, 0x10, 0x20, 0x40, 0x80, 0x1b, 0x36]

/-- `rot_word`: 8-bit left rotation of a 32-bit word (the `u32` left
shift truncates to 32 bits). -/
def rotWord (w : Nat) : Nat := ((w <<< 8) % 2 ^ 32) ||| (w >>> 24)

/-- `sub_word`: the S-box applied to each byte of a 32-bit word. -/
def subWord (w : Nat) : Nat :=
  fromBE ((beBytes 4 w).map (fun b => sbox.getD b 0))

/-- The word-expansion loop of `key_expansion`: appends `n` more words
to the schedule `w` (which starts with the 8 key words). -/
def keyExpandGo : Nat → List Nat → List Nat
  | 0, w => w
  | n + 1, w =>
      let i := w.length
      let temp := w.getD (i - 1) 0
      let temp2 :=
        if i % 8 = 0 then subWord (rotWord temp) ^^^ ((rcon.getD (i / 8 - 1) 0) <<< 24)
        else if i % 8 = 4 then subWord temp
        else temp
      keyExpandGo n (w ++ [w.getD (i - 8) 0 ^^^ temp2])

/-- The 60-word AES-256 key schedule. -/
def keyExpandW (key : List Nat) : List Nat :=
  keyExpandGo 52 ((List.range 8).map (fun i => fromBE (sub key (4 * i) 4)))

/-- Round key `r` as 16 bytes (big-endian store of 4 schedule words). -/
def roundKeyBytes (w : List Nat) (r : Nat) : List Nat :=
  ((List.range 4).map (fun j => beBytes 4 (w.getD (4 * r + j) 0))).flatten

/-- `key_expansion`: the 15 round keys, each of 16 bytes. -/
def keyExpansion (key : List Nat) : List (List Nat) :=
  (List.range 15).map (roundKeyBytes (keyExpandW key))

/-- `sub_bytes`: the S-box applied to every byte of the state. -/
def subBytes (s : List Nat) : List Nat := s.map (fun b => sbox.getD b 0)

/-- `shift_rows`: the net permutation of the source's in-place swap
sequence on the column-major 4x4 state. -/
def shiftRows (s : List Nat) : List Nat :=
  let g := fun i => s.getD i 0
  [g 0, g 5, g 10, g 15, g 4, g 9, g 14, g 3,
   g 8, g 13, g 2, g 7, g 12, g 1, g 6, g 11]

/-- The 8-iteration loop of `gmul` (GF(2^8) multiplication; the `u8`
left shift of `a` wraps modulo 256). -/
def gmulGo : Nat → Nat → Nat → Nat → Nat
  | 0, _, _, p => p
  | n + 1, a, b, p =>
      let p1 := if b &&& 1 ≠ 0 then p ^^^ a else p
      let hi := a &&& 0x80
      let a1 := (a <<< 1) % 256
      let a2 := if hi ≠ 0 then a1 ^^^ 0x1b else a1
      gmulGo n a2 (b >>> 1) p1

/-- `gmul(a, b)`: multiplication in GF(2^8). -/
def gmul (a b : Nat) : Nat := gmulGo 8 a b 0

/-- `mix_columns`. -/
def mixColumns (s : List Nat) : List Nat :=
  ((List.range 4).map (fun i =>
    let c := 4 * i
    let a0 := s.getD c 0
    let a1 := s.getD (c + 1) 0
    let a2 := s.getD (c + 2) 0
    let a3 := s.getD (c + 3) 0
    [gmul a0 2 ^^^ gmul a1 3 ^^^ a2 ^^^ a3,
     a0 ^^^ gmul a1 2 ^^^ gmul a2 3 ^^^ a3,
     a0 ^^^ a1 ^^^ gmul a2 2 ^^^ gmul a3 3,
     gmul a0 3 ^^^ a1 ^^^ a2 ^^^ gmul a3 2])).flatten

/-- `xor_block`: byte-wise XOR of two 16-byte blocks. -/
def xorBlock (dst src : List Nat) : List Nat := List.zipWith (· ^^^ ·) dst src

/-- `aes_encrypt_block`: AddRoundKey(0), 13 full rounds, final round
without MixColumns. -/
def aesEncryptBlock (block : List Nat) (rks : List (List Nat)) : List Nat :=
  let s0 := xorBlock block (rks.getD 0 [])
  let s1 := (List.range' 1 13).foldl
    (fun st r => xorBlock (mixColumns (shiftRows (subBytes st))) (rks.getD r [])) s0
  xorBlock (shiftRows (subBytes s1)) (rks.getD 14 [])

/-- `inc_counter`: increments the last 4 bytes of the counter block as
a big-endian 32-bit value, wrapping on overflow. -/
def incCounter (ctr : List Nat) : List Nat :=
  ctr.take 12 ++ beBytes 4 ((fromBE (sub ctr 12 4) + 1) % 2 ^ 32)

/-- `ghash_pad`: zero-pads to the next 16-byte boundary. -/
def ghashPad (data : List Nat) : List Nat :=
  if data.length % 16 = 0 then data
  else data ++ List.replicate (16 - data.length % 16) 0

/-- The CTR keystream loop shared by encryption and decryption
(`while offset < data.len()`), processing 16-byte chunks; fuel is
instantiated with `data.length`, which always suffices. -/
def ctrAux (rks : List (List Nat)) : Nat → List Nat → List Nat → List Nat
  | 0, _, _ => []
  | fuel + 1, ctr, d =>
      if d.isEmpty then []
      else
        let keystream := aesEncryptBlock ctr rks
        List.zipWith (· ^^^ ·) (d.take 16) keystream ++
          ctrAux rks fuel (incCounter ctr) (d.drop 16)

/-- CTR processing with adequate fuel. -/
def ctrProcess (rks : List (List Nat)) (ctr d : List Nat) : List Nat :=
  ctrAux rks d.length ctr d

/-- `compute_tag`: GHASH over `pad16(aad) || pad16(ciphertext) ||
bitlen(aad) || bitlen(ciphertext)` (64-bit big-endian bit lengths,
wrapping as `u64`), XORed with `S0 = AES_K(J0)`. -/
def computeTag (h : GfElement) (aad ciphertext s0 : List Nat) : List Nat :=
  let ghashInput := ghashPad aad ++ ghashPad ciphertext ++
    beBytes 8 (aad.length * 8 % 2 ^ 64) ++ beBytes 8 (ciphertext.length * 8 % 2 ^ 64)
  List.zipWith (· ^^^ ·) (ghash h ghashInput).toBytes s0

/-- `constant_time_eq`: OR-accumulates the XOR of all 16 byte pairs and
compares the accumulator with zero at the end; every iteration of the
loop runs regardless of where the inputs first differ. -/
def constantTimeEq (a b : List Nat) : Bool :=
  ((List.range 16).foldl (fun diff i => diff ||| (a.getD i 0 ^^^ b.getD i 0)) 0) == 0

/-- The counter block `J0 = nonce || 0x00000001` (this implementation
supports only 96-bit nonces; the `[u8; 12]` type makes `nonce` exactly
12 bytes long). -/
def gcmJ0 (nonce : List Nat) : List Nat := nonce ++ [0, 0, 0, 1]

/-- `aes_gcm_encrypt(key, nonce, plaintext, aad)`, returning
`(ciphertext, tag)`. -/
def aesGcmEncrypt (key nonce plaintext aad : List Nat) : List Nat × List Nat :=
  let rks := keyExpansion key
  let h := GfElement.fromBytes (aesEncryptBlock (List.replicate 16 0) rks)
  let j0 := gcmJ0 nonce
  let s0 := aesEncryptBlock j0 rks
  let ciphertext := ctrProcess rks (incCounter j0) plaintext
  (ciphertext, computeTag h aad ciphertext s0)

/-- `aes_gcm_decrypt(key, nonce, ciphertext, tag, aad)`: recomputes the
tag, compares in constant time, and only decrypts on a match. -/
def aesGcmDecrypt (key nonce ciphertext tag aad : List Nat) :
    Except BvError (List Nat) :=
  let rks := keyExpansion key
  let h := GfElement.fromBytes (aesEncryptBlock (List.replicate 16 0) rks)
  let j0 := gcmJ0 nonce
  let s0 := aesEncryptBlock j0 rks
  if constantTimeEq (computeTag h aad ciphertext s0) tag then
    .ok (ctrProcess rks (incCounter j0) ciphertext)
  else .error .crypto

/-- The tag `aes_gcm_decrypt` recomputes over its key, nonce,
ciphertext and AAD before comparing with the supplied tag. -/
def gcmExpectedTag (key nonce ciphertext aad : List Nat) : List Nat :=
  let rks := keyExpansion key
  let h := GfElement.fromBytes (aesEncryptBlock (List.replicate 16 0) rks)
  let s0 := aesEncryptBlock (gcmJ0 nonce) rks
  computeTag h aad ciphertext s0

/-- Flips every bit of byte `i` of a byte string (XOR with 0xFF). -/
def flipByte (i : Nat) (l : List Nat) : List Nat := l.set i (l.getD i 0 ^^^ 0xFF)

/-! ### Clipboard entries (`src/history/entry.rs`)

The `source_app` and `content` strings are represented by their UTF-8
byte sequences; `String::from_utf8_lossy` is the identity on them. -/

/-- `enum EntryType`. -/
inductive EntryType where
  | text
  | plainText
  | fileDrop
deriving DecidableEq

/-- The `#[repr(u8)]` discriminant used by `entry.entry_type as u8`. -/
def EntryType.toByte : EntryType → Nat
  | .text => 0
  | .plainText => 1
  | .fileDrop => 2

/-- `EntryType::from_u8`. -/
def EntryType.fromByte (v : Nat) : Option EntryType :=
  match v with
  | 0 => some .text
  | 1 => some .plainText
  | 2 => some .fileDrop
  | _ => none

/-- `EntryFlags::to_byte` (only the `pinned` flag exists). -/
def flagsToByte (pinned : Bool) : Nat := if pinned then 1 else 0

/-- `EntryFlags::from_byte`. -/
def flagsFromByte (b : Nat) : Bool := decide (b &&& 1 ≠ 0)

/-- `struct ClipboardEntry` (the `flags` field is its single `pinned`
bit). -/
structure ClipboardEntry where
  timestamp : Int
  entryType : EntryType
  pinned : Bool
  sourceApp : List Nat
  content : List Nat
deriving DecidableEq

/-- `i64::to_le_bytes` (two's complement). -/
def i64ToLe (t : Int) : List Nat := leBytes 8 (t % 2 ^ 64).toNat

/-- `i64::from_le_bytes` (two's complement). -/
def i64FromLe (l : List Nat) : Int :=
  let n := fromLE l
  if n < 2 ^ 63 then (n : Int) else (n : Int) - 2 ^ 64

/-! ### Serialization (`src/storage/format.rs`) -/

/-- `serialize_entry`: timestamp (8, i64 LE), type (1), flags (1),
source length (2, u16 LE after the `as u16` cast), source bytes,
content length (4, u32 LE after the `as u32` cast), content bytes. -/
def serializeEntry (e : ClipboardEntry) : List Nat :=
  i64ToLe e.timestamp ++ ([e.entryType.toByte] ++ ([flagsToByte e.pinned] ++
    (leBytes 2 e.sourceApp.length ++ (e.sourceApp ++
      (leBytes 4 e.content.length ++ e.content)))))

/-- `deserialize_entry`: validates every length field against the
remaining buffer before reading; returns the entry and the number of
consumed bytes. -/
def deserializeEntry (data : List Nat) : Except BvError (ClipboardEntry × Nat) :=
  if data.length < 8 then .error .integrity else
  let timestamp := i64FromLe (sub data 0 8)
  if data.length < 9 then .error .integrity else
  match EntryType.fromByte (byteAt data 8) with
  | none => .error .integrity
  | some entryType =>
    if data.length < 10 then .error .integrity else
    let flags := flagsFromByte (byteAt data 9)
    if data.length < 12 then .error .integrity else
    let sourceLen := fromLE (sub data 10 2)
    if data.length < 12 + sourceLen then .error .integrity else
    let sourceApp := sub data 12 sourceLen
    if data.length < 12 + sourceLen + 4 then .error .integrity else
    let contentLen := fromLE (sub data (12 + sourceLen) 4)
    if data.length < 16 + sourceLen + contentLen then .error .integrity else
    let content := sub data (16 + sourceLen) contentLen
    .ok (⟨timestamp, entryType, flags, sourceApp, content⟩,
      16 + sourceLen + contentLen)

/-- `serialize_entries`: a 4-byte LE count, then each entry prefixed
with its 4-byte LE size. -/
def serializeEntries (entries : List ClipboardEntry) : List Nat :=
  leBytes 4 entries.length ++
    (entries.map (fun e =>
      leBytes 4 (serializeEntry e).length ++ serializeEntry e)).flatten

/-- The per-entry loop of `deserialize_entries`: `count` entries
remain, reading starts at `pos`; entries are accumulated in reverse. -/
def deserializeEntriesLoop (data : List Nat) :
    Nat → Nat → List ClipboardEntry → Except BvError (List ClipboardEntry)
  | 0, _, acc => .ok acc.reverse
  | count + 1, pos, acc =>
      if data.length < pos + 4 then .error .integrity else
      let entrySize := fromLE (sub data pos 4)
      if data.length < pos + 4 + entrySize then .error .integrity else
      match deserializeEntry (sub data (pos + 4) entrySize) with
      | .error e => .error e
      | .ok (entry, consumed) =>
          if consumed ≠ entrySize then .error .integrity
          else deserializeEntriesLoop data count (pos + 4 + entrySize) (entry :: acc)

/-- `deserialize_entries`. -/
def deserializeEntries (data : List Nat) : Except BvError (List ClipboardEntry) :=
  if data.length < 4 then .error .integrity
  else deserializeEntriesLoop data (fromLE (sub data 0 4)) 4 []

/-- An entry whose source string occupies 65536 bytes: the
`source_bytes.len() as u16` cast in `serialize_entry` truncates 65536
to 0, so this entry does not survive a serialization roundtrip. -/
def oversizedEntry : ClipboardEntry :=
  ⟨0, .text, false, List.replicate 65536 97, []⟩

/-- A concrete 32-byte key for exercising AES-GCM. -/
def gcmSampleKey : List Nat := List.range 32

/-- A concrete 12-byte nonce for exercising AES-GCM. -/
def gcmSampleNonce : List Nat := List.range 12

/-- A concrete plaintext for exercising AES-GCM. -/
def gcmSamplePlain : List Nat := [1, 2, 3]

/-- A concrete AAD for exercising AES-GCM. -/
def gcmSampleAad : List Nat := [7]

/-- The ciphertext `aes_gcm_encrypt` produces on the sample inputs
(pinned by `gcmSample_encrypt_eq`). -/
def gcmSampleCt : List Nat := [70, 0, 213]

/-- The tag `aes_gcm_encrypt` produces on the sample inputs
(pinned by `gcmSample_encrypt_eq`). -/
def gcmSampleTag : List Nat :=
  [43, 102, 50, 41, 40, 153, 245, 114, 173, 24, 249, 250, 242, 32, 217, 206]

/-! ### Vault persistence (`src/storage/vault.rs`)

File I/O is modelled by values: `saveVaultData` returns the bytes
written to disk, `loadVaultData` takes `Option (List Nat)` with `none`
for an absent file.  The CSPRNG is modelled by the `nonce` argument. -/

/-- `VAULT_MAGIC = b"BVAULT01"`. -/
def vaultMagic : List Nat := [0x42, 0x56, 0x41, 0x55, 0x4C, 0x54, 0x30, 0x31]

/-- `VAULT_FORMAT_VERSION`. -/
def vaultFormatVersion : Nat := 1

/-- The observable outcome of a vault operation: a normal result, a
typed `BvError`, or a Rust panic (an out-of-range slice index). -/
inductive Outcome (α : Type) where
  | ok (value : α)
  | err (e : BvError)
  | panic
deriving DecidableEq

/-- The key-extraction step shared by `save_vault` (vault.rs:59-61)
and `load_vault` (vault.rs:150-152): the slice expression
`key[..AES_KEY_SIZE]` panics when the key is shorter than 32 bytes;
on the surviving slice, `try_into` checks that it has exactly 32 bytes
and maps its `Err` branch to the "Invalid key length" `Crypto` error. -/
def buildAesKey (key : List Nat) : Outcome (List Nat) :=
  if 32 ≤ key.length then
    (fun sliced => if sliced.length = 32 then .ok sliced else .err .crypto)
      (key.take 32)
  else .panic

/-- Ordinary Rust slice equality, as used by `load_vault`'s file-HMAC
check (`file_hmac != data[hmac_offset..]`, vault.rs:124): lengths must
agree and bytes are compared element-wise, stopping at the first
mismatching byte — not the `constant_time_eq` routine that
`aes_gcm_decrypt` uses for the GCM tag. -/
def sliceEqShortCircuit : List Nat → List Nat → Bool
  | [], [] => true
  | a :: ta, b :: tb => if a = b then sliceEqShortCircuit ta tb else false
  | _, _ => false

/-- The number of byte comparisons `sliceEqShortCircuit` performs
before returning: it counts the loop iterations executed, which end at
the first mismatching byte.  A constant-time comparison would perform
a number of comparisons depending only on the input lengths. -/
def sliceEqSteps : List Nat → List Nat → Nat
  | a :: ta, b :: tb => 1 + (if a = b then sliceEqSteps ta tb else 0)
  | _, _ => 0

/-- `save_vault`, returning the bytes written: serialize the entries,
extract the 32-byte AES key (panicking on a short key), encrypt with
the magic constant as AAD, assemble
`magic || version || nonce || tag || ct_len || ciphertext` and append
`hmac_sha256(key, all preceding bytes)`.  The temp-file/rename step is
I/O and outside the value model. -/
def saveVaultData (nonce : List Nat) (entries : List ClipboardEntry)
    (key : List Nat) : Outcome (List Nat) :=
  let plaintext := serializeEntries entries
  match buildAesKey key with
  | .panic => .panic
  | .err e => .err e
  | .ok aesKey =>
    let enc := aesGcmEncrypt aesKey nonce plaintext vaultMagic
    let body := vaultMagic ++ (leBytes 4 vaultFormatVersion ++ (nonce ++
      (enc.2 ++ (leBytes 4 enc.1.length ++ enc.1))))
    .ok (body ++ hmacSha256 key body)

/-- `load_vault` on the contents of the vault file (`none` = the file
does not exist): minimum size, magic and version checks, file-HMAC
verification over all preceding bytes, then nonce/tag/length parsing,
AES-GCM decryption and entry deserialization. -/
def loadVaultData (file : Option (List Nat)) (key : List Nat) :
    Outcome (List ClipboardEntry) :=
  match file with
  | none => .ok []
  | some data =>
    if data.length < 76 then .err .integrity
    else if sub data 0 8 ≠ vaultMagic then .err .integrity
    else if fromLE (sub data 8 4) ≠ vaultFormatVersion then .err .integrity
    else
      let hmacOffset := data.length - 32
      if sliceEqShortCircuit (hmacSha256 key (data.take hmacOffset))
          (data.drop hmacOffset) = false then .err .integrity
      else
        let nonce := sub data 12 12
        let tag := sub data 24 16
        let ctLen := fromLE (sub data 40 4)
        if hmacOffset < 44 + ctLen then .err .integrity
        else
          let ciphertext := sub data 44 ctLen
          match buildAesKey key with
          | .panic => .panic
          | .err e => .err e
          | .ok aesKey =>
            match aesGcmDecrypt aesKey nonce ciphertext tag vaultMagic with
            | .error e => .err e
            | .ok plaintext =>
              match deserializeEntries plaintext with
              | .error e => .err e
              | .ok entries => .ok entries

/-- Saving then loading the written file with the same key. -/
def vaultRoundtrip (nonce : List Nat) (entries : List ClipboardEntry)
    (key : List Nat) : Outcome (List ClipboardEntry) :=
  match saveVaultData nonce entries key with
  | .ok file => loadVaultData (some file) key
  | .err e => .err e
  | .panic => .panic

/-- A 32-byte baseline value for comparing HMAC comparison costs. -/
def hmacCmpBase : List Nat := List.replicate 32 0

/-- Differs from `hmacCmpBase` only at byte 0. -/
def hmacCmpDiffFirst : List Nat := 1 :: List.replicate 31 0

/-- Differs from `hmacCmpBase` only at byte 31. -/
def hmacCmpDiffLast : List Nat := List.replicate 31 0 ++ [1]

/-- The canonical hasher state after absorbing the whole message `m`
from a fresh `Sha256::new()`: the running hash has compressed every
complete 64-byte block of `m`, the buffer holds the remaining tail,
and the length counter holds `m.length` (wrapped to 64 bits). -/
def shaAbsorb (m : List Nat) : Sha256 :=
  ⟨(processBlocks shaHInit m).1, (processBlocks shaHInit m).2, m.length % 2 ^ 64⟩

/-! ### Theorems -/

theorem length_leBytes (n x : Nat) : (leBytes n x).length = n := by
  induction n generalizing x with
  | zero => rfl
  | succ n ih => simp [leBytes, ih]

theorem length_beBytes (n x : Nat) : (beBytes n x).length = n := by
  simp [beBytes, length_leBytes]

theorem fromLE_leBytes (n x : Nat) : fromLE (leBytes n x) = x % 256 ^ n := by
  induction n generalizing x with
  | zero => simp [leBytes, fromLE, Nat.mod_one]
  | succ n ih =>
      rw [leBytes, fromLE, ih, pow_succ, mul_comm (256 ^ n) 256, Nat.mod_mul]

theorem sub_append_right (a b : List Nat) (p n : Nat) (hp : a.length ≤ p) :
    sub (a ++ b) p n = sub b (p - a.length) n := by
  simp [sub, List.drop_append_eq_append_drop, List.drop_eq_nil_of_le hp]

theorem sub_take_prefix (a b : List Nat) (n : Nat) (hn : n ≤ a.length) :
    sub (a ++ b) 0 n = a.take n := by
  simp [sub, List.take_append_eq_append_take, Nat.sub_eq_zero_of_le hn]

theorem sub_zero_full (a b : List Nat) : sub (a ++ b) 0 a.length = a := by
  simp only [sub, List.drop_zero]
  exact List.take_left a b

theorem byteAt_eq_headD_drop (l : List Nat) (p : Nat) :
    byteAt l p = (l.drop p).headD 0 := by
  induction l generalizing p with
  | nil => simp [byteAt, List.getD]
  | cons x xs ih =>
      cases p with
      | zero => simp [byteAt, List.getD]
      | succ p => exact ih p

theorem byteAt_append_right (a b : List Nat) (p : Nat) (hp : a.length ≤ p) :
    byteAt (a ++ b) p = byteAt b (p - a.length) := by
  simp [byteAt_eq_headD_drop, List.drop_append_eq_append_drop,
    List.drop_eq_nil_of_le hp]

theorem processBlocksAux_small (fuel : Nat) (s d : List Nat) (h : d.length < 64) :
    processBlocksAux fuel s d = (s, d) := by
  cases fuel with
  | zero => rfl
  | succ fuel => simp [processBlocksAux, Nat.not_le.mpr h]

theorem processBlocksAux_adequate (fuel : Nat) :
    ∀ s d : List Nat, d.length ≤ fuel →
      processBlocksAux fuel s d = processBlocks s d := by
  induction fuel using Nat.strong_induction_on with
  | _ fuel ih =>
    intro s d hle
    match fuel with
    | 0 =>
        interval_cases h : d.length
        · match d, h with
          | [], _ => rfl
    | fuel + 1 =>
        by_cases h64 : 64 ≤ d.length
        · have hdrop : (d.drop 64).length ≤ fuel := by
            simp only [List.length_drop]; omega
          rw [processBlocksAux, if_pos h64, ih fuel (by omega) _ _ hdrop]
          unfold processBlocks
          have h2 : d.length = (d.length - 1) + 1 := by omega
          rw [h2, processBlocksAux, if_pos h64,
            ih (d.length - 1) (by omega) _ _ (by simp only [List.length_drop]; omega)]
          rfl
        · rw [processBlocksAux_small _ _ _ (Nat.not_le.mp h64)]
          unfold processBlocks
          rw [processBlocksAux_small _ _ _ (Nat.not_le.mp h64)]

theorem processBlocks_small (s d : List Nat) (h : d.length < 64) :
    processBlocks s d = (s, d) :=
  processBlocksAux_small _ _ _ h

theorem processBlocks_step (s d : List Nat) (h : 64 ≤ d.length) :
    processBlocks s d = processBlocks (compress s (d.take 64)) (d.drop 64) := by
  unfold processBlocks
  have h2 : d.length = (d.length - 1) + 1 := by omega
  rw [h2, processBlocksAux, if_pos h,
    processBlocksAux_adequate _ _ _ (by simp only [List.length_drop]; omega)]
  rfl

theorem processBlocks_nil (s : List Nat) : processBlocks s [] = (s, []) := rfl

theorem processBlocks_rem_lt (s d : List Nat) : (processBlocks s d).2.length < 64 := by
  have main : ∀ n s d, (d : List Nat).length ≤ n → (processBlocks s d).2.length < 64 := by
    intro n
    induction n using Nat.strong_induction_on with
    | _ n ih =>
      intro s d hle
      by_cases h64 : 64 ≤ d.length
      · rw [processBlocks_step s d h64]
        exact ih (d.drop 64).length (by simp only [List.length_drop]; omega) _ _ le_rfl
      · rw [processBlocks_small s d (Nat.not_le.mp h64)]
        exact Nat.not_le.mp h64
  exact main d.length s d le_rfl

/-- FIPS 180-4 test vector: SHA-256 of the empty message (mirrors the
repository's `test_sha256_empty`). -/
theorem sha256_nil :
    sha256 [] =
      [0xe3, 0xb0, 0xc4, 0x42, 0x98, 0xfc, 0x1c, 0x14,
       0x9a, 0xfb, 0xf4, 0xc8, 0x99, 0x6f, 0xb9, 0x24,
       0x27, 0xae, 0x41, 0xe4, 0x64, 0x9b, 0x93, 0x4c,
       0xa4, 0x95, 0x99, 0x1b, 0x78, 0x52, 0xb8, 0x55] := by decide

/-- FIPS 180-4 test vector: SHA-256 of "abc" (mirrors the repository's
`test_sha256_abc`). -/
theorem sha256_abc :
    sha256 [0x61, 0x62, 0x63] =
      [0xba, 0x78, 0x16, 0xbf, 0x8f, 0x01, 0xcf, 0xea,
       0x41, 0x41, 0x40, 0xde, 0x5d, 0xae, 0x22, 0x23,
       0xb0, 0x03, 0x61, 0xa3, 0x96, 0x17, 0x7a, 0x9c,
       0xb4, 0x10, 0xff, 0x61, 0xf2, 0x00, 0x15, 0xad] := by decide

/-- RFC 4231 test case 2 (mirrors the repository's
`test_hmac_sha256_rfc4231_case2`): key "Jefe", message
"what do ya want for nothing?". -/
theorem hmacSha256_rfc4231_case2 :
    hmacSha256 [0x4a, 0x65, 0x66, 0x65]
      [0x77, 0x68, 0x61, 0x74, 0x20, 0x64, 0x6f, 0x20, 0x79, 0x61, 0x20, 0x77,
       0x61, 0x6e, 0x74, 0x20, 0x66, 0x6f, 0x72, 0x20, 0x6e, 0x6f, 0x74, 0x68,
       0x69, 0x6e, 0x67, 0x3f] =
      [0x5b, 0xdc, 0xc1, 0x46, 0xbf, 0x60, 0x75, 0x4e,
       0x6a, 0x04, 0x24, 0x26, 0x08, 0x95, 0x75, 0xc7,
       0x5a, 0x00, 0x3f, 0x08, 0x9d, 0x27, 0x39, 0x83,
       0x9d, 0xec, 0x58, 0xb9, 0x64, 0xec, 0x38, 0x43] := by decide

/-- C7: `pbkdf2_hmac_sha256("password", "salt", 1, 20)` returns exactly
the 20-byte RFC 6070 vector 120fb6cffcf8b32c43e7225256c4f837a86548c9,
and `pbkdf2_hmac_sha256("password", "salt", 2, 20)` returns exactly
ae4d0c95af6b46d32d0adff928f06dd02a303f8e. -/
theorem claim_C7_pbkdf2_rfc6070 :
    pbkdf2HmacSha256
        [0x70, 0x61, 0x73, 0x73, 0x77, 0x6f, 0x72, 0x64]
        [0x73, 0x61, 0x6c, 0x74] 1 20 =
      [0x12, 0x0f, 0xb6, 0xcf, 0xfc, 0xf8, 0xb3, 0x2c,
       0x43, 0xe7, 0x22, 0x52, 0x56, 0xc4, 0xf8, 0x37,
       0xa8, 0x65, 0x48, 0xc9] ∧
    pbkdf2HmacSha256
        [0x70, 0x61, 0x73, 0x73, 0x77, 0x6f, 0x72, 0x64]
        [0x73, 0x61, 0x6c, 0x74] 2 20 =
      [0xae, 0x4d, 0x0c, 0x95, 0xaf, 0x6b, 0x46, 0xd3,
       0x2d, 0x0a, 0xdf, 0xf9, 0x28, 0xf0, 0x6d, 0xd0,
       0x2a, 0x30, 0x3f, 0x8e] := by
  constructor
  · decide
  · decide

/-- C10: for every password, salt and output length,
`pbkdf2_hmac_sha256` with `iterations = 0` returns the same output as
with `iterations = 1`: the `for _ in 1..iterations` loop body runs zero
times in both cases, so an iteration count of zero neither fails nor
yields a distinct key. -/
theorem claim_C10_pbkdf2_zero_iterations (password salt : List Nat) (keyLen : Nat) :
    pbkdf2HmacSha256 password salt 0 keyLen =
      pbkdf2HmacSha256 password salt 1 keyLen := by
  unfold pbkdf2HmacSha256
  have h : pbkdf2Block password salt 0 = pbkdf2Block password salt 1 := by
    funext blockIdx
    rfl
  rw [h]


theorem processBlocks_append (s x y : List Nat) :
    processBlocks s (x ++ y) =
      processBlocks (processBlocks s x).1 ((processBlocks s x).2 ++ y) := by
  have main : ∀ n s (x y : List Nat), x.length ≤ n →
      processBlocks s (x ++ y) =
        processBlocks (processBlocks s x).1 ((processBlocks s x).2 ++ y) := by
    intro n
    induction n using Nat.strong_induction_on with
    | _ n ih =>
      intro s x y hle
      by_cases h64 : 64 ≤ x.length
      · have hxy : 64 ≤ (x ++ y).length := by
          simp only [List.length_append]; omega
        rw [processBlocks_step _ _ hxy, processBlocks_step _ _ h64]
        have htake : (x ++ y).take 64 = x.take 64 := by
          rw [List.take_append_eq_append_take, Nat.sub_eq_zero_of_le h64]
          simp
        have hdrop : (x ++ y).drop 64 = x.drop 64 ++ y := by
          rw [List.drop_append_eq_append_drop, Nat.sub_eq_zero_of_le h64,
            List.drop_zero]
        rw [htake, hdrop]
        exact ih (x.drop 64).length (by simp only [List.length_drop]; omega)
          _ _ _ le_rfl
      · rw [processBlocks_small s x (Nat.not_le.mp h64)]
  exact main x.length s x y le_rfl

theorem update_shaAbsorb (m d : List Nat) :
    (shaAbsorb m).update d = shaAbsorb (m ++ d) := by
  have hrem : (processBlocks shaHInit m).2.length < 64 := processBlocks_rem_lt _ _
  have happ := processBlocks_append shaHInit m d
  have htot : ((m.length % 2 ^ 64) + d.length) % 2 ^ 64 = (m ++ d).length % 2 ^ 64 := by
    rw [List.length_append]
    exact Nat.mod_add_mod m.length (2 ^ 64) d.length
  unfold shaAbsorb Sha256.update
  by_cases hnil : (processBlocks shaHInit m).2.isEmpty
  · rw [if_pos hnil]
    rw [List.isEmpty_iff] at hnil
    rw [happ, hnil]
    simp [htot]
  · rw [if_neg hnil]
    rw [List.isEmpty_iff] at hnil
    set r := (processBlocks shaHInit m).2 with hr
    by_cases hsmall : d.length < 64 - r.length
    · rw [if_pos hsmall]
      have hlt : (r ++ d).length < 64 := by
        simp only [List.length_append]; omega
      rw [happ, processBlocks_small _ _ hlt]
      simp [htot]
    · rw [if_neg hsmall]
      have hrle : r.length ≤ 64 := le_of_lt hrem
      have hge : 64 ≤ (r ++ d).length := by
        simp only [List.length_append]; omega
      have htake : (r ++ d).take 64 = r ++ d.take (64 - r.length) := by
        rw [List.take_append_eq_append_take, List.take_of_length_le hrle]
      have hdrop : (r ++ d).drop 64 = d.drop (64 - r.length) := by
        rw [List.drop_append_eq_append_drop, List.drop_eq_nil_of_le hrle,
          List.nil_append]
      rw [happ, processBlocks_step _ _ hge, htake, hdrop]
      simp [htot]

theorem foldl_update_shaAbsorb (chunks : List (List Nat)) (m : List Nat) :
    chunks.foldl Sha256.update (shaAbsorb m) = shaAbsorb (m ++ chunks.flatten) := by
  induction chunks generalizing m with
  | nil => simp
  | cons c cs ih =>
      simp only [List.foldl_cons, update_shaAbsorb, ih, List.flatten_cons,
        List.append_assoc]

/-- C6: for every byte string and every way of splitting it into a
finite sequence of chunks (chunks may be empty), calling `Sha256::new`,
then `update` once per chunk in order, then `finalize`, yields the same
32-byte digest as the one-shot `sha256` of the concatenation. -/
theorem claim_C6_sha256_incremental_chunking (chunks : List (List Nat)) :
    (chunks.foldl Sha256.update Sha256.new).finalize = sha256 chunks.flatten := by
  have hnew : Sha256.new = shaAbsorb [] := rfl
  have h1 : chunks.foldl Sha256.update Sha256.new = shaAbsorb chunks.flatten := by
    rw [hnew, foldl_update_shaAbsorb, List.nil_append]
  have h2 : sha256 chunks.flatten = (shaAbsorb chunks.flatten).finalize := by
    unfold sha256
    rw [hnew, update_shaAbsorb, List.nil_append]
  rw [h1, h2]

theorem lor_eq_zero_iff (x y : Nat) : x ||| y = 0 ↔ x = 0 ∧ y = 0 := by
  constructor
  · intro h
    constructor
    · refine Nat.eq_of_testBit_eq (fun i => ?_)
      have := congrArg (fun n => n.testBit i) h
      simp [Nat.testBit_or] at this
      simp [this.1]
    · refine Nat.eq_of_testBit_eq (fun i => ?_)
      have := congrArg (fun n => n.testBit i) h
      simp [Nat.testBit_or] at this
      simp [this.2]
  · rintro ⟨rfl, rfl⟩
    rfl

theorem foldl_or_eq_zero_iff (f : Nat → Nat) (l : List Nat) (d : Nat) :
    l.foldl (fun acc i => acc ||| f i) d = 0 ↔ d = 0 ∧ ∀ i ∈ l, f i = 0 := by
  induction l generalizing d with
  | nil => simp
  | cons x xs ih =>
      rw [List.foldl_cons, ih, lor_eq_zero_iff]
      constructor
      · rintro ⟨⟨h1, h2⟩, h3⟩
        exact ⟨h1, by simpa [h2] using h3⟩
      · rintro ⟨h1, h2⟩
        exact ⟨⟨h1, h2 x (by simp)⟩, fun i hi => h2 i (by simp [hi])⟩

theorem constantTimeEq_eq_true_iff (a b : List Nat)
    (ha : a.length = 16) (hb : b.length = 16) :
    constantTimeEq a b = true ↔ a = b := by
  unfold constantTimeEq
  rw [beq_iff_eq, foldl_or_eq_zero_iff]
  constructor
  · rintro ⟨-, h⟩
    refine List.ext_getElem (ha.trans hb.symm) (fun i h1 h2 => ?_)
    have hx := h i (by simp [List.mem_range]; omega)
    rw [Nat.xor_eq_zero] at hx
    rw [← List.getD_eq_getElem a 0 h1, ← List.getD_eq_getElem b 0 h2]
    exact hx
  · rintro rfl
    exact ⟨rfl, fun i _ => Nat.xor_self _⟩

theorem constantTimeEq_self (a : List Nat) : constantTimeEq a a = true := by
  unfold constantTimeEq
  rw [beq_iff_eq, foldl_or_eq_zero_iff]
  exact ⟨rfl, fun i _ => Nat.xor_self _⟩

theorem roundKeyBytes_expand (w : List Nat) (r : Nat) :
    roundKeyBytes w r =
      beBytes 4 (w.getD (4 * r) 0) ++ (beBytes 4 (w.getD (4 * r + 1) 0) ++
        (beBytes 4 (w.getD (4 * r + 2) 0) ++ (beBytes 4 (w.getD (4 * r + 3) 0) ++ []))) := by
  simp [roundKeyBytes, List.range_succ]

theorem length_roundKeyBytes (w : List Nat) (r : Nat) :
    (roundKeyBytes w r).length = 16 := by
  rw [roundKeyBytes_expand]
  simp [length_beBytes]

theorem getD_keyExpansion (key : List Nat) (r : Nat) (h : r < 15) :
    (keyExpansion key).getD r [] = roundKeyBytes (keyExpandW key) r := by
  interval_cases r <;> rfl

theorem length_shiftRows (s : List Nat) : (shiftRows s).length = 16 := rfl

theorem length_aesEncryptBlock (key b : List Nat) :
    (aesEncryptBlock b (keyExpansion key)).length = 16 := by
  unfold aesEncryptBlock
  rw [getD_keyExpansion key 14 (by omega)]
  simp [xorBlock, List.length_zipWith, length_shiftRows, length_roundKeyBytes]

theorem ctrAux_adequate (rks : List (List Nat)) (fuel : Nat) :
    ∀ ctr d : List Nat, d.length ≤ fuel →
      ctrAux rks fuel ctr d = ctrProcess rks ctr d := by
  induction fuel using Nat.strong_induction_on with
  | _ fuel ih =>
    intro ctr d hle
    match fuel with
    | 0 =>
        match d, hle with
        | [], _ => rfl
    | fuel + 1 =>
        by_cases hnil : d.isEmpty
        · rw [List.isEmpty_iff] at hnil
          subst hnil
          rfl
        · have hpos : 0 < d.length := by
            cases d with
            | nil => simp at hnil
            | cons x xs => simp
          rw [ctrAux, if_neg (by simpa using hnil),
            ih fuel (by omega) _ _ (by simp only [List.length_drop]; omega)]
          unfold ctrProcess
          have h2 : d.length = (d.length - 1) + 1 := by omega
          rw [h2, ctrAux, if_neg (by simpa using hnil),
            ih (d.length - 1) (by omega) _ _ (by simp only [List.length_drop]; omega)]
          rfl

theorem ctrProcess_nil (rks : List (List Nat)) (ctr : List Nat) :
    ctrProcess rks ctr [] = [] := rfl

theorem ctrProcess_step (rks : List (List Nat)) (ctr d : List Nat) (h : d ≠ []) :
    ctrProcess rks ctr d =
      List.zipWith (· ^^^ ·) (d.take 16) (aesEncryptBlock ctr rks) ++
        ctrProcess rks (incCounter ctr) (d.drop 16) := by
  have hpos : 0 < d.length := List.length_pos.mpr h
  unfold ctrProcess
  have h2 : d.length = (d.length - 1) + 1 := by omega
  rw [h2, ctrAux, if_neg (by simpa using h),
    ctrAux_adequate _ _ _ _ (by simp only [List.length_drop]; omega)]
  rfl

theorem zipWith_xor_invol (a b : List Nat) (h : a.length ≤ b.length) :
    List.zipWith (· ^^^ ·) (List.zipWith (· ^^^ ·) a b) b = a := by
  induction a generalizing b with
  | nil => simp
  | cons x xs ih =>
      cases b with
      | nil => simp at h
      | cons y ys =>
          simp only [List.zipWith_cons_cons, List.cons.injEq]
          refine ⟨?_, ih ys (by simpa using h)⟩
          rw [Nat.xor_assoc, Nat.xor_self, Nat.xor_zero]

theorem ctrProcess_invol (key ctr d : List Nat) :
    ctrProcess (keyExpansion key) ctr (ctrProcess (keyExpansion key) ctr d) = d := by
  have main : ∀ n ctr (d : List Nat), d.length ≤ n →
      ctrProcess (keyExpansion key) ctr (ctrProcess (keyExpansion key) ctr d) = d := by
    intro n
    induction n using Nat.strong_induction_on with
    | _ n ih =>
      intro ctr d hle
      by_cases hnil : d = []
      · subst hnil
        rfl
      · set ks := aesEncryptBlock ctr (keyExpansion key) with hks
        have hks16 : ks.length = 16 := length_aesEncryptBlock key ctr
        set chunk := List.zipWith (· ^^^ ·) (d.take 16) ks with hchunk
        set rest := ctrProcess (keyExpansion key) (incCounter ctr) (d.drop 16) with hrest
        have hcl : chunk.length = min d.length 16 := by
          simp only [hchunk, List.length_zipWith, hks16, List.length_take]
          omega
        have hchunk_ne : chunk ≠ [] := by
          rw [← List.length_pos, hcl]
          have := List.length_pos.mpr hnil
          omega
        have he : ctrProcess (keyExpansion key) ctr d = chunk ++ rest :=
          ctrProcess_step _ _ _ hnil
        have htake : (chunk ++ rest).take 16 = chunk := by
          rw [List.take_append_eq_append_take,
            List.take_of_length_le (by omega : chunk.length ≤ 16)]
          by_cases h16 : 16 ≤ d.length
          · have : 16 - chunk.length = 0 := by omega
            simp [this]
          · have : rest = [] := by
              rw [hrest, List.drop_eq_nil_of_le (by omega), ctrProcess_nil]
            simp [this]
        have hdrop : (chunk ++ rest).drop 16 = rest := by
          rw [List.drop_append_eq_append_drop,
            List.drop_eq_nil_of_le (by omega : chunk.length ≤ 16), List.nil_append]
          by_cases h16 : 16 ≤ d.length
          · have : 16 - chunk.length = 0 := by omega
            simp [this]
          · have : rest = [] := by
              rw [hrest, List.drop_eq_nil_of_le (by omega), ctrProcess_nil]
            simp [this]
        rw [he, ctrProcess_step _ _ _ (by simp [hchunk_ne]), htake, hdrop, ← hks]
        rw [hchunk, zipWith_xor_invol _ _ (by simp [hks16, List.length_take])]
        rw [hrest, ih (d.drop 16).length
          (by simp only [List.length_drop]; have := List.length_pos.mpr hnil; omega)
          _ _ le_rfl]
        exact List.take_append_drop 16 d
  exact main d.length ctr d le_rfl

theorem gcm_encrypt_decrypt (key nonce plaintext aad : List Nat) :
    aesGcmDecrypt key nonce (aesGcmEncrypt key nonce plaintext aad).1
      (aesGcmEncrypt key nonce plaintext aad).2 aad = .ok plaintext := by
  unfold aesGcmEncrypt aesGcmDecrypt
  simp only [if_pos (constantTimeEq_self _), ctrProcess_invol]

/-- C2: for every 32-byte key, 12-byte nonce, plaintext (including the
empty byte string) and AAD (including the empty byte string),
decrypting the (ciphertext, tag) pair produced by `aes_gcm_encrypt`
with the same key, nonce and AAD succeeds and returns the original
plaintext. -/
theorem claim_C2_gcm_encrypt_decrypt_roundtrip
    (key nonce plaintext aad : List Nat)
    (hkey : key.length = 32) (hnonce : nonce.length = 12) :
    aesGcmDecrypt key nonce (aesGcmEncrypt key nonce plaintext aad).1
      (aesGcmEncrypt key nonce plaintext aad).2 aad = .ok plaintext :=
  gcm_encrypt_decrypt key nonce plaintext aad

/-- Witness for C2 at a concrete 32-byte key, 12-byte nonce, a 3-byte
plaintext and empty AAD. -/
theorem claim_C2_witness :
    (List.replicate 32 0xAA).length = 32 ∧ (List.replicate 12 0x01).length = 12 ∧
      aesGcmDecrypt (List.replicate 32 0xAA) (List.replicate 12 0x01)
        (aesGcmEncrypt (List.replicate 32 0xAA) (List.replicate 12 0x01) [1, 2, 3] []).1
        (aesGcmEncrypt (List.replicate 32 0xAA) (List.replicate 12 0x01) [1, 2, 3] []).2
        [] = .ok [1, 2, 3] :=
  ⟨by decide, by decide,
    claim_C2_gcm_encrypt_decrypt_roundtrip _ _ _ _ (by decide) (by decide)⟩

/-- NIST AES-256 known-answer test (mirrors the repository's
`test_aes_encrypt_block_known`). -/
theorem aesEncryptBlock_nist_vector :
    aesEncryptBlock
        [0x00, 0x11, 0x22, 0x33, 0x44, 0x55, 0x66, 0x77,
         0x88, 0x99, 0xaa, 0xbb, 0xcc, 0xdd, 0xee, 0xff]
        (keyExpansion
          [0x00, 0x01, 0x02, 0x03, 0x04, 0x05, 0x06, 0x07,
           0x08, 0x09, 0x0a, 0x0b, 0x0c, 0x0d, 0x0e, 0x0f,
           0x10, 0x11, 0x12, 0x13, 0x14, 0x15, 0x16, 0x17,
           0x18, 0x19, 0x1a, 0x1b, 0x1c, 0x1d, 0x1e, 0x1f]) =
      [0x8e, 0xa2, 0xb7, 0xca, 0x51, 0x67, 0x45, 0xbf,
       0xea, 0xfc, 0x49, 0x90, 0x4b, 0x49, 0x60, 0x89] := by decide

theorem gcmSample_encrypt_eq :
    aesGcmEncrypt gcmSampleKey gcmSampleNonce gcmSamplePlain gcmSampleAad =
      (gcmSampleCt, gcmSampleTag) := by decide

theorem xor_ff_ne (a : Nat) : a ^^^ 0xFF ≠ a := by
  intro h
  have h2 : a ^^^ (a ^^^ 0xFF) = a ^^^ a := congrArg (a ^^^ ·) h
  rw [← Nat.xor_assoc, Nat.xor_self, Nat.zero_xor] at h2
  exact absurd h2 (by decide)

theorem length_gcmExpectedTag (key nonce ciphertext aad : List Nat) :
    (gcmExpectedTag key nonce ciphertext aad).length = 16 := by
  unfold gcmExpectedTag computeTag
  simp [List.length_zipWith, GfElement.toBytes, length_beBytes,
    length_aesEncryptBlock]

theorem encrypt_snd_eq_expectedTag (key nonce plaintext aad : List Nat) :
    (aesGcmEncrypt key nonce plaintext aad).2 =
      gcmExpectedTag key nonce (aesGcmEncrypt key nonce plaintext aad).1 aad := rfl

theorem aesGcmDecrypt_expand (key nonce ciphertext tag aad : List Nat) :
    aesGcmDecrypt key nonce ciphertext tag aad =
      if constantTimeEq (gcmExpectedTag key nonce ciphertext aad) tag then
        .ok (ctrProcess (keyExpansion key) (incCounter (gcmJ0 nonce)) ciphertext)
      else .error .crypto := rfl

theorem gcmDecrypt_bad_tag (key nonce ciphertext aad tag : List Nat)
    (hlen : tag.length = 16) (hne : tag ≠ gcmExpectedTag key nonce ciphertext aad) :
    aesGcmDecrypt key nonce ciphertext tag aad = .error .crypto := by
  have hct : constantTimeEq (gcmExpectedTag key nonce ciphertext aad) tag = false := by
    rcases Bool.eq_false_or_eq_true
      (constantTimeEq (gcmExpectedTag key nonce ciphertext aad) tag) with h | h
    · exact absurd ((constantTimeEq_eq_true_iff _ _
        (length_gcmExpectedTag _ _ _ _) hlen).mp h).symm hne
    · exact h
  rw [aesGcmDecrypt_expand, hct]
  rfl

/-- C3: `aes_gcm_decrypt` rejects whenever the supplied tag differs
from the tag recomputed over the AAD and ciphertext: it fails with the
`Crypto` error kind and no plaintext is produced (the tag comparison
happens before the CTR decryption in the source).  In particular, on
an honest encryption, flipping any single tag byte fails for every
key, nonce, plaintext and AAD; and on the pinned sample encryption
(`gcmSample_encrypt_eq`), flipping any single ciphertext byte or
supplying mismatched AAD makes decryption fail as well. -/
theorem claim_C3_gcm_tag_verified_before_decrypting :
    (∀ key nonce ciphertext aad tag : List Nat, tag.length = 16 →
        tag ≠ gcmExpectedTag key nonce ciphertext aad →
        aesGcmDecrypt key nonce ciphertext tag aad = .error .crypto) ∧
    (∀ key nonce plaintext aad : List Nat, ∀ i < 16,
        aesGcmDecrypt key nonce (aesGcmEncrypt key nonce plaintext aad).1
          (flipByte i (aesGcmEncrypt key nonce plaintext aad).2) aad
          = .error .crypto) ∧
    (∀ j < gcmSampleCt.length,
        aesGcmDecrypt gcmSampleKey gcmSampleNonce (flipByte j gcmSampleCt)
          gcmSampleTag gcmSampleAad = .error .crypto) ∧
    aesGcmDecrypt gcmSampleKey gcmSampleNonce gcmSampleCt gcmSampleTag [8]
      = .error .crypto := by
  refine ⟨fun key nonce ct aad tag hl hn => gcmDecrypt_bad_tag key nonce ct aad tag hl hn,
    ?_, by decide, by decide⟩
  intro key nonce plaintext aad i hi
  have htag : (aesGcmEncrypt key nonce plaintext aad).2 =
      gcmExpectedTag key nonce (aesGcmEncrypt key nonce plaintext aad).1 aad :=
    encrypt_snd_eq_expectedTag key nonce plaintext aad
  have hlen : (aesGcmEncrypt key nonce plaintext aad).2.length = 16 := by
    rw [htag]; exact length_gcmExpectedTag _ _ _ _
  apply gcmDecrypt_bad_tag
  · rw [flipByte, List.length_set]; exact hlen
  · rw [← htag]
    intro habs
    have h3 := congrArg (fun l => l.getD i 0) habs
    simp only [flipByte] at h3
    have h4 : ((aesGcmEncrypt key nonce plaintext aad).2.set i
        ((aesGcmEncrypt key nonce plaintext aad).2.getD i 0 ^^^ 0xFF)).getD i 0 =
        (aesGcmEncrypt key nonce plaintext aad).2.getD i 0 ^^^ 0xFF := by
      rw [List.getD_eq_getElem _ 0 (by rw [List.length_set]; omega)]
      simp [List.getElem_set]
    rw [h4] at h3
    exact xor_ff_ne _ h3

/-- Witness for C3: a concrete all-zero tag differs from the tag
recomputed on the sample inputs and is rejected; flipping tag byte 0
of the sample honest encryption is rejected. -/
theorem claim_C3_witness :
    ((List.replicate 16 0).length = 16 ∧
      (List.replicate 16 0 : List Nat) ≠
        gcmExpectedTag gcmSampleKey gcmSampleNonce gcmSampleCt gcmSampleAad ∧
      aesGcmDecrypt gcmSampleKey gcmSampleNonce gcmSampleCt
        (List.replicate 16 0) gcmSampleAad = .error .crypto) ∧
    ((0 : Nat) < 16 ∧
      aesGcmDecrypt gcmSampleKey gcmSampleNonce
        (aesGcmEncrypt gcmSampleKey gcmSampleNonce gcmSamplePlain gcmSampleAad).1
        (flipByte 0 (aesGcmEncrypt gcmSampleKey gcmSampleNonce gcmSamplePlain gcmSampleAad).2)
        gcmSampleAad = .error .crypto) :=
  ⟨⟨by decide, by decide,
      claim_C3_gcm_tag_verified_before_decrypting.1 gcmSampleKey gcmSampleNonce
        gcmSampleCt gcmSampleAad (List.replicate 16 0) (by decide) (by decide)⟩,
    ⟨by decide,
      claim_C3_gcm_tag_verified_before_decrypting.2.1 gcmSampleKey gcmSampleNonce
        gcmSamplePlain gcmSampleAad 0 (by decide)⟩⟩

theorem length_i64ToLe (t : Int) : (i64ToLe t).length = 8 := by
  simp [i64ToLe, length_leBytes]

theorem sub_prefix_exact (a b : List Nat) (n : Nat) (h : a.length = n) :
    sub (a ++ b) 0 n = a := by
  subst h
  exact sub_zero_full a b

theorem EntryType.fromByte_toByte (ety : EntryType) :
    EntryType.fromByte ety.toByte = some ety := by
  cases ety <;> rfl

theorem flagsFromByte_flagsToByte (pinned : Bool) :
    flagsFromByte (flagsToByte pinned) = pinned := by
  cases pinned <;> decide

theorem i64FromLe_i64ToLe (t : Int) (h1 : -(2 ^ 63) ≤ t) (h2 : t < 2 ^ 63) :
    i64FromLe (i64ToLe t) = t := by
  unfold i64ToLe i64FromLe
  have hlt : t % 2 ^ 64 < 2 ^ 64 := Int.emod_lt_of_pos t (by norm_num)
  have hnn : (0 : Int) ≤ t % 2 ^ 64 := Int.emod_nonneg t (by norm_num)
  rw [fromLE_leBytes]
  have h256 : (256 : Nat) ^ 8 = 2 ^ 64 := by norm_num
  rw [h256, Nat.mod_eq_of_lt (by omega)]
  show (if (t % 2 ^ 64).toNat < 2 ^ 63 then (((t % 2 ^ 64).toNat : Nat) : Int)
    else (((t % 2 ^ 64).toNat : Nat) : Int) - 2 ^ 64) = t
  split_ifs with h <;> omega

theorem length_serializeEntry (e : ClipboardEntry) :
    (serializeEntry e).length = 16 + e.sourceApp.length + e.content.length := by
  simp [serializeEntry, length_i64ToLe, length_leBytes]
  omega

theorem deserializeEntry_serializeEntry (e : ClipboardEntry)
    (hs : e.sourceApp.length < 2 ^ 16) (hc : e.content.length < 2 ^ 32)
    (ht1 : -(2 ^ 63) ≤ e.timestamp) (ht2 : e.timestamp < 2 ^ 63) :
    deserializeEntry (serializeEntry e) =
      .ok (e, 16 + e.sourceApp.length + e.content.length) := by
  obtain ⟨ts, ety, pin, src, cont⟩ := e
  simp only at hs hc ht1 ht2
  have hD : serializeEntry ⟨ts, ety, pin, src, cont⟩ =
      i64ToLe ts ++ (ety.toByte :: flagsToByte pin ::
        (leBytes 2 src.length ++ (src ++ (leBytes 4 cont.length ++ cont)))) := rfl
  set D := serializeEntry ⟨ts, ety, pin, src, cont⟩ with hDdef
  have hlen : D.length = 16 + src.length + cont.length :=
    length_serializeEntry _
  have d8 : D.drop 8 = ety.toByte :: flagsToByte pin ::
      (leBytes 2 src.length ++ (src ++ (leBytes 4 cont.length ++ cont))) := by
    rw [hD]
    exact List.drop_left' (length_i64ToLe ts)
  have d10 : D.drop 10 = leBytes 2 src.length ++ (src ++ (leBytes 4 cont.length ++ cont)) := by
    have h1 : (10 : Nat) = 8 + 2 := rfl
    rw [h1, ← List.drop_drop, d8]
    rfl
  have d12 : D.drop 12 = src ++ (leBytes 4 cont.length ++ cont) := by
    have h1 : (12 : Nat) = 10 + 2 := rfl
    rw [h1, ← List.drop_drop, d10]
    exact List.drop_left' (length_leBytes 2 src.length)
  have d12s : D.drop (12 + src.length) = leBytes 4 cont.length ++ cont := by
    rw [← List.drop_drop, d12]
    exact List.drop_left' rfl
  have d16s : D.drop (16 + src.length) = cont := by
    rw [show 16 + src.length = (12 + src.length) + 4 from by omega,
      ← List.drop_drop, d12s]
    exact List.drop_left' (length_leBytes 4 cont.length)
  have r1 : sub D 0 8 = i64ToLe ts := by
    rw [hD]
    exact sub_prefix_exact _ _ _ (length_i64ToLe ts)
  have r2 : byteAt D 8 = ety.toByte := by
    rw [byteAt_eq_headD_drop, d8]
    rfl
  have r3 : byteAt D 9 = flagsToByte pin := by
    rw [byteAt_eq_headD_drop, show (9 : Nat) = 8 + 1 from rfl, ← List.drop_drop, d8]
    rfl
  have r4 : fromLE (sub D 10 2) = src.length := by
    rw [sub, d10, List.take_left' (length_leBytes 2 src.length), fromLE_leBytes]
    exact Nat.mod_eq_of_lt (by norm_num at hs ⊢; omega)
  have r5 : sub D 12 src.length = src := by
    rw [sub, d12]
    exact List.take_left' rfl
  have r6 : fromLE (sub D (12 + src.length) 4) = cont.length := by
    rw [sub, d12s, List.take_left' (length_leBytes 4 cont.length), fromLE_leBytes]
    exact Nat.mod_eq_of_lt (by norm_num at hc ⊢; omega)
  have r7 : sub D (16 + src.length) cont.length = cont := by
    rw [sub, d16s]
    exact List.take_of_length_le le_rfl
  rw [deserializeEntry]
  rw [if_neg (by omega)]
  simp only [r1, r2, r4, r6, EntryType.fromByte_toByte]
  rw [if_neg (by omega)]
  simp only [r3]
  rw [if_neg (by omega), if_neg (by omega), if_neg (by omega),
    if_neg (by omega), if_neg (by omega)]
  simp only [r5, r7, flagsFromByte_flagsToByte,
    i64FromLe_i64ToLe ts ht1 ht2]

theorem deserializeEntriesLoop_ok (data : List Nat) (rest : List ClipboardEntry) :
    ∀ (pos : Nat) (acc : List ClipboardEntry),
      pos ≤ data.length →
      data.drop pos = (rest.map (fun e =>
        leBytes 4 (serializeEntry e).length ++ serializeEntry e)).flatten →
      (∀ e ∈ rest, e.sourceApp.length < 2 ^ 16 ∧ e.content.length < 2 ^ 32 ∧
        16 + e.sourceApp.length + e.content.length < 2 ^ 32 ∧
        -(2 ^ 63) ≤ e.timestamp ∧ e.timestamp < 2 ^ 63) →
      deserializeEntriesLoop data rest.length pos acc = .ok (acc.reverse ++ rest) := by
  induction rest with
  | nil =>
      intro pos acc hpos hdrop hb
      simp [deserializeEntriesLoop]
  | cons e rest ih =>
      intro pos acc hpos hdrop hb
      obtain ⟨hs, hc, hsz, ht1, ht2⟩ := hb e (by simp)
      have hLe : (serializeEntry e).length =
          16 + e.sourceApp.length + e.content.length := length_serializeEntry e
      set L := (serializeEntry e).length with hL
      set tailF := (rest.map (fun e =>
        leBytes 4 (serializeEntry e).length ++ serializeEntry e)).flatten with htailF
      have hdrop2 : data.drop pos = leBytes 4 L ++ (serializeEntry e ++ tailF) := by
        rw [hdrop]
        simp [List.append_assoc]
      have hrem : data.length - pos = 4 + L + tailF.length := by
        have hc2 := congrArg List.length hdrop2
        simp [List.length_drop, length_leBytes] at hc2
        omega
      have resize : fromLE (sub data pos 4) = L := by
        rw [sub, hdrop2, List.take_left' (length_leBytes 4 L), fromLE_leBytes]
        exact Nat.mod_eq_of_lt (by norm_num at hsz ⊢; omega)
      have rslice : sub data (pos + 4) L = serializeEntry e := by
        rw [sub, ← List.drop_drop, hdrop2, List.drop_left' (length_leBytes 4 L)]
        exact List.take_left' rfl
      have hdrop3 : data.drop (pos + 4 + L) = tailF := by
        rw [Nat.add_assoc, ← List.drop_drop, hdrop2, ← List.drop_drop,
          List.drop_left' (length_leBytes 4 L), List.drop_left' rfl]
      have hb3 : ∀ e' ∈ rest, e'.sourceApp.length < 2 ^ 16 ∧
          e'.content.length < 2 ^ 32 ∧
          16 + e'.sourceApp.length + e'.content.length < 2 ^ 32 ∧
          -(2 ^ 63) ≤ e'.timestamp ∧ e'.timestamp < 2 ^ 63 := by
        intro e' he'
        exact hb e' (by simp [he'])
      simp only [List.length_cons]
      rw [deserializeEntriesLoop]
      rw [if_neg (by omega)]
      simp only [resize]
      rw [if_neg (by omega)]
      simp only [rslice, deserializeEntry_serializeEntry e hs hc ht1 ht2]
      rw [if_neg (by omega)]
      rw [ih (pos + 4 + L) (e :: acc) (by omega) hdrop3 hb3]
      simp

theorem deserializeEntries_serializeEntries (entries : List ClipboardEntry)
    (hb : ∀ e ∈ entries, e.sourceApp.length < 2 ^ 16 ∧ e.content.length < 2 ^ 32 ∧
      16 + e.sourceApp.length + e.content.length < 2 ^ 32 ∧
      -(2 ^ 63) ≤ e.timestamp ∧ e.timestamp < 2 ^ 63)
    (hcount : entries.length < 2 ^ 32) :
    deserializeEntries (serializeEntries entries) = .ok entries := by
  have hdata : serializeEntries entries = leBytes 4 entries.length ++
      (entries.map (fun e =>
        leBytes 4 (serializeEntry e).length ++ serializeEntry e)).flatten := rfl
  have hlen : 4 ≤ (serializeEntries entries).length := by
    rw [hdata]
    simp [length_leBytes]
  have hcnt : fromLE (sub (serializeEntries entries) 0 4) = entries.length := by
    rw [hdata, sub_prefix_exact _ _ _ (length_leBytes 4 entries.length), fromLE_leBytes]
    exact Nat.mod_eq_of_lt (by norm_num at hcount ⊢; omega)
  have hdrop : (serializeEntries entries).drop 4 =
      (entries.map (fun e =>
        leBytes 4 (serializeEntry e).length ++ serializeEntry e)).flatten := by
    rw [hdata]
    exact List.drop_left' (length_leBytes 4 entries.length)
  rw [deserializeEntries, if_neg (by omega)]
  simp only [hcnt]
  rw [deserializeEntriesLoop_ok (serializeEntries entries) entries 4 [] hlen hdrop hb]
  simp

theorem serializeEntry_oversized :
    serializeEntry oversizedEntry =
      List.replicate 12 0 ++ (List.replicate 65536 97 ++ List.replicate 4 0) := by
  rw [serializeEntry]
  simp only [oversizedEntry, List.length_replicate, List.length_nil]
  rw [show i64ToLe 0 = ([0, 0, 0, 0, 0, 0, 0, 0] : List Nat) from by decide,
    show (leBytes 2 65536 : List Nat) = [0, 0] from by decide,
    show (leBytes 4 0 : List Nat) = [0, 0, 0, 0] from by decide,
    show EntryType.toByte .text = 0 from rfl,
    show flagsToByte false = 0 from rfl,
    show (List.replicate 12 0 : List Nat) =
      [0, 0, 0, 0, 0, 0, 0, 0, 0, 0, 0, 0] from by decide,
    show (List.replicate 4 0 : List Nat) = [0, 0, 0, 0] from by decide]
  simp only [List.cons_append, List.nil_append, List.append_nil]

theorem deserialize_serialize_oversized :
    deserializeEntries (serializeEntries [oversizedEntry]) = .error .integrity := by
  have hL : (serializeEntry oversizedEntry).length = 65552 := by
    rw [serializeEntry_oversized]
    simp only [List.length_append, List.length_replicate]
  have hE : deserializeEntry (serializeEntry oversizedEntry) = .error .integrity := by
    set D := serializeEntry oversizedEntry with hD
    have d12 : D.drop 12 = List.replicate 65536 97 ++ List.replicate 4 0 := by
      rw [hD, serializeEntry_oversized]
      exact List.drop_left' (by simp)
    have d10 : D.drop 10 = (0 : Nat) :: (0 : Nat) ::
        (List.replicate 65536 97 ++ List.replicate 4 0) := by
      rw [hD, serializeEntry_oversized,
        show (List.replicate 12 0 : List Nat) =
          List.replicate 10 0 ++ [0, 0] from by decide,
        List.append_assoc, List.drop_left' (by simp)]
      rfl
    have r4 : fromLE (sub D 10 2) = 0 := by
      rw [sub, d10]
      rfl
    have r6 : fromLE (sub D 12 4) = 1633771873 := by
      rw [sub, d12, List.take_append_eq_append_take, List.take_replicate]
      simp only [List.length_replicate]
      decide
    have r2 : byteAt D 8 = 0 := by
      rw [hD, serializeEntry_oversized, byteAt_eq_headD_drop,
        show (List.replicate 12 0 : List Nat) =
          List.replicate 8 0 ++ [0, 0, 0, 0] from by decide,
        List.append_assoc, List.drop_left' (by simp)]
      rfl
    have r3 : byteAt D 9 = 0 := by
      rw [hD, serializeEntry_oversized, byteAt_eq_headD_drop,
        show (List.replicate 12 0 : List Nat) =
          List.replicate 9 0 ++ [0, 0, 0] from by decide,
        List.append_assoc, List.drop_left' (by simp)]
      rfl
    rw [deserializeEntry]
    rw [if_neg (by omega)]
    simp only [r2, show EntryType.fromByte 0 = some EntryType.text from rfl, r4, r6]
    rw [if_neg (by omega)]
    simp only [r3]
    rw [if_neg (by omega), if_neg (by omega), if_neg (by omega),
      if_neg (by omega)]
    rw [if_pos (by omega)]
  have hdata : serializeEntries [oversizedEntry] =
      leBytes 4 1 ++ (leBytes 4 (serializeEntry oversizedEntry).length ++
        (serializeEntry oversizedEntry ++ [])) := by
    rw [serializeEntries]
    simp [List.append_assoc]
  have hlen : (serializeEntries [oversizedEntry]).length = 65560 := by
    rw [hdata]
    simp [length_leBytes, hL]
  have hcnt : fromLE (sub (serializeEntries [oversizedEntry]) 0 4) = 1 := by
    rw [hdata, sub_prefix_exact _ _ _ (length_leBytes 4 1), fromLE_leBytes]
    norm_num
  have resize : fromLE (sub (serializeEntries [oversizedEntry]) 4 4) = 65552 := by
    rw [sub, hdata, List.drop_left' (length_leBytes 4 1),
      List.take_left' (length_leBytes 4 _), fromLE_leBytes, hL]
    norm_num
  have rslice : sub (serializeEntries [oversizedEntry]) (4 + 4) 65552 =
      serializeEntry oversizedEntry := by
    rw [sub, ← List.drop_drop, hdata, List.drop_left' (length_leBytes 4 1),
      List.drop_left' (length_leBytes 4 _)]
    rw [← hL]
    exact List.take_left' (by simp)
  rw [deserializeEntries, if_neg (by omega)]
  simp only [hcnt]
  rw [deserializeEntriesLoop]
  rw [if_neg (by omega)]
  simp only [resize]
  rw [if_neg (by omega)]
  simp only [rslice, hE]

/-- C4, counterexample: the claim fails as stated.  For the single
record `oversizedEntry`, whose source string is 65536 bytes long, the
`as u16` cast in `serialize_entry` truncates the stored source length
to 0, and deserialization then misparses the record and fails with an
integrity error instead of returning the original list. -/
theorem claim_C4_counterexample :
    deserializeEntries (serializeEntries [oversizedEntry]) = .error .integrity ∧
      deserializeEntries (serializeEntries [oversizedEntry]) ≠ .ok [oversizedEntry] := by
  refine ⟨deserialize_serialize_oversized, ?_⟩
  rw [deserialize_serialize_oversized]
  intro h
  exact Except.noConfusion h

/-- C4 (amended): for every list of clipboard records whose length
fields fit their encoded widths — each source string shorter than
2^16 bytes, each content string shorter than 2^32 bytes, each
serialized record shorter than 2^32 bytes, each timestamp within the
i64 range, and fewer than 2^32 records — `deserialize_entries` applied
to `serialize_entries` of the list succeeds and returns a list equal
field-for-field to the original. -/
theorem claim_C4_serialization_roundtrip (entries : List ClipboardEntry)
    (hb : ∀ e ∈ entries, e.sourceApp.length < 2 ^ 16 ∧ e.content.length < 2 ^ 32 ∧
      16 + e.sourceApp.length + e.content.length < 2 ^ 32 ∧
      -(2 ^ 63) ≤ e.timestamp ∧ e.timestamp < 2 ^ 63)
    (hcount : entries.length < 2 ^ 32) :
    deserializeEntries (serializeEntries entries) = .ok entries :=
  deserializeEntries_serializeEntries entries hb hcount

/-- Witness for C4 at a concrete two-record list. -/
theorem claim_C4_witness :
    (∀ e ∈ [(⟨1700000000, .text, true, [116, 101], [104, 105]⟩ : ClipboardEntry),
        ⟨0, .fileDrop, false, [], [97]⟩],
      e.sourceApp.length < 2 ^ 16 ∧ e.content.length < 2 ^ 32 ∧
        16 + e.sourceApp.length + e.content.length < 2 ^ 32 ∧
        -(2 ^ 63) ≤ e.timestamp ∧ e.timestamp < 2 ^ 63) ∧
    ([(⟨1700000000, .text, true, [116, 101], [104, 105]⟩ : ClipboardEntry),
        ⟨0, .fileDrop, false, [], [97]⟩] : List ClipboardEntry).length < 2 ^ 32 ∧
    deserializeEntries (serializeEntries
        [(⟨1700000000, .text, true, [116, 101], [104, 105]⟩ : ClipboardEntry),
          ⟨0, .fileDrop, false, [], [97]⟩]) =
      .ok [(⟨1700000000, .text, true, [116, 101], [104, 105]⟩ : ClipboardEntry),
        ⟨0, .fileDrop, false, [], [97]⟩] :=
  ⟨by decide, by decide, claim_C4_serialization_roundtrip _ (by decide) (by decide)⟩

theorem length_compress (s b : List Nat) : (compress s b).length = 8 := rfl

theorem length_digestOf (st : List Nat) : (digestOf st).length = 4 * st.length := by
  induction st with
  | nil => rfl
  | cons x xs ih =>
      simp only [digestOf, List.map_cons, List.flatten_cons, List.length_append,
        length_beBytes, List.length_cons] at ih ⊢
      omega

theorem length_finalize (s : Sha256) : s.finalize.length = 32 := by
  simp only [Sha256.finalize]
  split_ifs <;> simp [length_digestOf, length_compress]

theorem length_hmacSha256 (key message : List Nat) :
    (hmacSha256 key message).length = 32 := by
  simp only [hmacSha256]
  exact length_finalize _

theorem encrypt_fst_eq_ctrProcess (key nonce plaintext aad : List Nat) :
    (aesGcmEncrypt key nonce plaintext aad).1 =
      ctrProcess (keyExpansion key) (incCounter (gcmJ0 nonce)) plaintext := rfl

theorem length_ctrProcess (key ctr d : List Nat) :
    (ctrProcess (keyExpansion key) ctr d).length = d.length := by
  have main : ∀ n ctr (d : List Nat), d.length ≤ n →
      (ctrProcess (keyExpansion key) ctr d).length = d.length := by
    intro n
    induction n using Nat.strong_induction_on with
    | _ n ih =>
      intro ctr d hle
      by_cases hnil : d = []
      · subst hnil
        rfl
      · have hpos : 0 < d.length := List.length_pos.mpr hnil
        rw [ctrProcess_step _ _ _ hnil]
        rw [List.length_append, List.length_zipWith, length_aesEncryptBlock,
          ih (d.drop 16).length (by simp only [List.length_drop]; omega) _ _ le_rfl]
        simp only [List.length_take, List.length_drop]
        omega
  exact main d.length ctr d le_rfl

theorem sliceEq_eq_true_iff : ∀ a b : List Nat,
    sliceEqShortCircuit a b = true ↔ a = b := by
  intro a
  induction a with
  | nil =>
      intro b
      cases b <;> simp [sliceEqShortCircuit]
  | cons x xs ih =>
      intro b
      cases b with
      | nil => simp [sliceEqShortCircuit]
      | cons y ys =>
          by_cases hxy : x = y
          · subst hxy
            simp [sliceEqShortCircuit, ih]
          · simp [sliceEqShortCircuit, hxy]

theorem buildAesKey_of_length_eq (key : List Nat) (hkey : key.length = 32) :
    buildAesKey key = .ok key := by
  rw [buildAesKey, if_pos (by omega)]
  have ht : key.take 32 = key := List.take_of_length_le (by omega)
  simp only [ht, if_pos hkey]

theorem vaultRoundtrip_eq_deserialize (nonce : List Nat)
    (entries : List ClipboardEntry) (key : List Nat)
    (hkey : key.length = 32) (hnonce : nonce.length = 12)
    (hsl : (serializeEntries entries).length < 2 ^ 32) :
    vaultRoundtrip nonce entries key =
      match deserializeEntries (serializeEntries entries) with
      | .ok es => .ok es
      | .error e => .err e := by
  have hbk : buildAesKey key = .ok key := buildAesKey_of_length_eq key hkey
  set P := serializeEntries entries with hP
  set enc := aesGcmEncrypt key nonce P vaultMagic with henc
  have htag16 : enc.2.length = 16 := by
    rw [henc, encrypt_snd_eq_expectedTag]
    exact length_gcmExpectedTag _ _ _ _
  have hct : enc.1.length = P.length := by
    rw [henc, encrypt_fst_eq_ctrProcess]
    exact length_ctrProcess _ _ _
  set body := vaultMagic ++ (leBytes 4 vaultFormatVersion ++ (nonce ++
    (enc.2 ++ (leBytes 4 enc.1.length ++ enc.1)))) with hbody
  have hsave : saveVaultData nonce entries key = .ok (body ++ hmacSha256 key body) := by
    rw [saveVaultData]
    simp only [hbk, ← hP, ← henc, ← hbody]
  have hbodylen : body.length = 44 + P.length := by
    rw [hbody]
    simp only [List.length_append, length_leBytes, hnonce, htag16, hct]
    norm_num [vaultMagic]
    omega
  have hhm : (hmacSha256 key body).length = 32 := length_hmacSha256 _ _
  set F := body ++ hmacSha256 key body with hF
  have hFlen : F.length = 76 + P.length := by
    rw [hF, List.length_append, hbodylen, hhm]
    omega
  have dA : F = vaultMagic ++ (leBytes 4 vaultFormatVersion ++ (nonce ++
      (enc.2 ++ (leBytes 4 enc.1.length ++ (enc.1 ++ hmacSha256 key body))))) := by
    rw [hF, hbody]
    simp [List.append_assoc]
  have d8 : F.drop 8 = leBytes 4 vaultFormatVersion ++ (nonce ++
      (enc.2 ++ (leBytes 4 enc.1.length ++ (enc.1 ++ hmacSha256 key body)))) := by
    rw [dA]
    exact List.drop_left' (by decide)
  have d12 : F.drop 12 = nonce ++
      (enc.2 ++ (leBytes 4 enc.1.length ++ (enc.1 ++ hmacSha256 key body))) := by
    rw [show (12 : Nat) = 8 + 4 from rfl, ← List.drop_drop, d8]
    exact List.drop_left' (length_leBytes 4 _)
  have d24 : F.drop 24 = enc.2 ++
      (leBytes 4 enc.1.length ++ (enc.1 ++ hmacSha256 key body)) := by
    rw [show (24 : Nat) = 12 + 12 from rfl, ← List.drop_drop, d12]
    exact List.drop_left' hnonce
  have d40 : F.drop 40 = leBytes 4 enc.1.length ++ (enc.1 ++ hmacSha256 key body) := by
    rw [show (40 : Nat) = 24 + 16 from rfl, ← List.drop_drop, d24]
    exact List.drop_left' htag16
  have d44 : F.drop 44 = enc.1 ++ hmacSha256 key body := by
    rw [show (44 : Nat) = 40 + 4 from rfl, ← List.drop_drop, d40]
    exact List.drop_left' (length_leBytes 4 _)
  have f0 : sub F 0 8 = vaultMagic := by
    rw [dA]
    exact sub_prefix_exact _ _ _ (by decide)
  have fver : fromLE (sub F 8 4) = 1 := by
    rw [sub, d8, List.take_left' (length_leBytes 4 _), fromLE_leBytes]
    norm_num [vaultFormatVersion]
  have fnonce : sub F 12 12 = nonce := by
    rw [sub, d12]
    exact List.take_left' hnonce
  have ftag : sub F 24 16 = enc.2 := by
    rw [sub, d24]
    exact List.take_left' htag16
  have fctlen : fromLE (sub F 40 4) = P.length := by
    rw [sub, d40, List.take_left' (length_leBytes 4 _), fromLE_leBytes, hct]
    exact Nat.mod_eq_of_lt (by norm_num at hsl ⊢; omega)
  have fct : sub F 44 P.length = enc.1 := by
    rw [sub, d44, ← hct]
    exact List.take_left' rfl
  have hoff : F.length - 32 = body.length := by omega
  have ftake : F.take (F.length - 32) = body := by
    rw [hoff, hF]
    exact List.take_left _ _
  have fdrop : F.drop (F.length - 32) = hmacSha256 key body := by
    rw [hoff, hF]
    exact List.drop_left _ _
  have fsli : sliceEqShortCircuit (hmacSha256 key (F.take (F.length - 32)))
      (F.drop (F.length - 32)) = true := by
    rw [ftake, fdrop]
    exact (sliceEq_eq_true_iff _ _).mpr rfl
  rw [vaultRoundtrip]
  simp only [hsave]
  rw [loadVaultData]
  rw [if_neg (by omega)]
  rw [if_neg (by simp [f0])]
  rw [if_neg (by simp [fver, vaultFormatVersion])]
  rw [if_neg (by simp [fsli])]
  simp only [fnonce, ftag, fctlen]
  rw [if_neg (by omega)]
  simp only [fct, hbk, henc, gcm_encrypt_decrypt]
  cases deserializeEntries P <;> rfl

theorem length_serializeEntry_oversized :
    (serializeEntry oversizedEntry).length = 65552 := by
  rw [serializeEntry_oversized]
  simp only [List.length_append, List.length_replicate]

theorem length_serializeEntries_oversized :
    (serializeEntries [oversizedEntry]).length = 65560 := by
  simp only [serializeEntries, List.map_cons, List.map_nil, List.flatten_cons,
    List.flatten_nil, List.append_nil, List.length_append, length_leBytes,
    List.length_cons, List.length_nil, length_serializeEntry_oversized]

/-- C1, counterexample: the claim fails as stated.  Saving the single
record `oversizedEntry` (source string of 65536 bytes) with an
all-0xAA 32-byte key and then loading the written file with the same
key returns an integrity error, not the original record: the `as u16`
cast in `serialize_entry` truncates the stored source length, and the
deserialization stage of `load_vault` rejects the decrypted payload. -/
theorem claim_C1_counterexample :
    vaultRoundtrip (List.replicate 12 0) [oversizedEntry]
        (List.replicate 32 0xAA) = .err .integrity ∧
      vaultRoundtrip (List.replicate 12 0) [oversizedEntry]
        (List.replicate 32 0xAA) ≠ .ok [oversizedEntry] := by
  have h := vaultRoundtrip_eq_deserialize (List.replicate 12 0) [oversizedEntry]
    (List.replicate 32 0xAA) (by simp) (by simp)
    (by rw [length_serializeEntries_oversized]; norm_num)
  rw [h, deserialize_serialize_oversized]
  exact ⟨rfl, fun hc => Outcome.noConfusion hc⟩

/-- C1 (amended): for every 32-byte key, every 12-byte nonce drawn for
the save, and every record list whose length fields fit their encoded
widths (each source string shorter than 2^16 bytes, each content
string shorter than 2^32 bytes, each serialized record and the whole
serialized stream shorter than 2^32 bytes, timestamps in the i64
range, fewer than 2^32 records), saving with `save_vault` and then
loading the written file with `load_vault` using the same key returns
exactly the original records, in the same order, with identical field
values. -/
theorem claim_C1_vault_roundtrip (nonce : List Nat)
    (entries : List ClipboardEntry) (key : List Nat)
    (hkey : key.length = 32) (hnonce : nonce.length = 12)
    (hb : ∀ e ∈ entries, e.sourceApp.length < 2 ^ 16 ∧ e.content.length < 2 ^ 32 ∧
      16 + e.sourceApp.length + e.content.length < 2 ^ 32 ∧
      -(2 ^ 63) ≤ e.timestamp ∧ e.timestamp < 2 ^ 63)
    (hcount : entries.length < 2 ^ 32)
    (hsl : (serializeEntries entries).length < 2 ^ 32) :
    vaultRoundtrip nonce entries key = .ok entries := by
  rw [vaultRoundtrip_eq_deserialize nonce entries key hkey hnonce hsl,
    deserializeEntries_serializeEntries entries hb hcount]

/-- C8: for every key, `load_vault` on a path where no file exists
returns success with an empty record collection, not an error. -/
theorem claim_C8_load_missing_file (key : List Nat) :
    loadVaultData none key = .ok [] := rfl

/-- C9: for every key shorter than 32 bytes (and any nonce and record
list), `save_vault` panics on the slice expression `key[..32]` instead
of returning a typed key-length error; and the `Err` branch of the
`try_into` that maps to the "Invalid key length" error is unreachable
in both `save_vault` and `load_vault` (which share `buildAesKey`):
whenever the slicing itself does not panic, the slice has exactly 32
bytes, so `buildAesKey` never returns the `Crypto` error. -/
theorem claim_C9_short_key_panics :
    (∀ key : List Nat, key.length < 32 → buildAesKey key = .panic) ∧
    (∀ key : List Nat, buildAesKey key ≠ .err .crypto) ∧
    (∀ (nonce : List Nat) (entries : List ClipboardEntry) (key : List Nat),
      key.length < 32 → saveVaultData nonce entries key = .panic) := by
  refine ⟨?_, ?_, ?_⟩
  · intro key h
    rw [buildAesKey, if_neg (by omega)]
  · intro key h
    rw [buildAesKey] at h
    by_cases h32 : 32 ≤ key.length
    · rw [if_pos h32] at h
      simp only [List.length_take] at h
      rw [if_pos (show min 32 key.length = 32 by omega)] at h
      exact Outcome.noConfusion h
    · rw [if_neg h32] at h
      exact Outcome.noConfusion h
  · intro nonce entries key h
    have hb : buildAesKey key = .panic := by
      rw [buildAesKey, if_neg (by omega)]
    rw [saveVaultData]
    simp only [hb]

/-- Witness for C9: the empty key is shorter than 32 bytes, the shared
key-extraction step panics on it, and so does `save_vault`. -/
theorem claim_C9_witness :
    ([] : List Nat).length < 32 ∧ buildAesKey [] = .panic ∧
      saveVaultData (List.replicate 12 0) [] [] = .panic :=
  ⟨by decide, claim_C9_short_key_panics.1 [] (by decide),
    claim_C9_short_key_panics.2.2 (List.replicate 12 0) [] [] (by decide)⟩

/-- C5, counterexample: the claim fails as stated.  The comparison
`load_vault` uses for the trailing file HMAC (`file_hmac !=
data[hmac_offset..]`, embedded as `sliceEqShortCircuit`) is not
constant-time: on two pairs of 32-byte inputs of identical lengths
that differ only in the position of the first mismatching byte, it
performs 1 byte comparison versus 32 — its cost depends on where the
inputs first differ, which a constant-time comparison forbids.  (The
constant-time routine exists in the codebase but is used only for the
GCM tag in `aes_gcm_decrypt`.) -/
theorem claim_C5_counterexample :
    hmacCmpBase.length = 32 ∧ hmacCmpDiffFirst.length = 32 ∧
      hmacCmpDiffLast.length = 32 ∧
      sliceEqSteps hmacCmpBase hmacCmpDiffFirst = 1 ∧
      sliceEqSteps hmacCmpBase hmacCmpDiffLast = 32 := by decide

/-- C5 (amended): `load_vault` verifies the trailing 32-byte file HMAC
with ordinary short-circuiting slice equality, not a constant-time
comparison; the comparison is nonetheless functionally exact: it
accepts precisely when the recomputed and stored HMAC byte strings are
equal. -/
theorem claim_C5_hmac_compare_exact (a b : List Nat) :
    sliceEqShortCircuit a b = true ↔ a = b :=
  sliceEq_eq_true_iff a b

/-- Witness for C1 (amended) at an all-0xAA 32-byte key, an all-zero
12-byte nonce and a concrete two-record list. -/
theorem claim_C1_witness :
    (List.replicate 32 0xAA : List Nat).length = 32 ∧
    (List.replicate 12 0 : List Nat).length = 12 ∧
    (∀ e ∈ [(⟨1700000000, .text, true, [116, 101], [104, 105]⟩ : ClipboardEntry),
        ⟨0, .fileDrop, false, [], [97]⟩],
      e.sourceApp.length < 2 ^ 16 ∧ e.content.length < 2 ^ 32 ∧
        16 + e.sourceApp.length + e.content.length < 2 ^ 32 ∧
        -(2 ^ 63) ≤ e.timestamp ∧ e.timestamp < 2 ^ 63) ∧
    ([(⟨1700000000, .text, true, [116, 101], [104, 105]⟩ : ClipboardEntry),
        ⟨0, .fileDrop, false, [], [97]⟩] : List ClipboardEntry).length < 2 ^ 32 ∧
    (serializeEntries [(⟨1700000000, .text, true, [116, 101], [104, 105]⟩ : ClipboardEntry),
        ⟨0, .fileDrop, false, [], [97]⟩]).length < 2 ^ 32 ∧
    vaultRoundtrip (List.replicate 12 0)
        [(⟨1700000000, .text, true, [116, 101], [104, 105]⟩ : ClipboardEntry),
          ⟨0, .fileDrop, false, [], [97]⟩]
        (List.replicate 32 0xAA) =
      .ok [(⟨1700000000, .text, true, [116, 101], [104, 105]⟩ : ClipboardEntry),
        ⟨0, .fileDrop, false, [], [97]⟩] :=
  ⟨by decide, by decide, by decide, by decide, by decide,
    claim_C1_vault_roundtrip _ _ _ (by decide) (by decide) (by decide)
      (by decide) (by decide)⟩


end BufferVault

